import Mathlib

/-!
# Food Rescue content database: search-term normalisation and topic lookup

A shallow embedding of `ContentDatabase` (src/src/ContentDatabase.cpp).

* A `QString` is a list of characters.
* The SQLite database is a `Store`: one list of rows per table, with the columns the
  queries of `contentAsDocbook` name.  Ids are natural numbers; `products.code` is an integer,
  since the queries compare it with the `long long` bound to `:code`.  A database that cannot
  be queried is `none`.
* Joins are nested loops over the tables in the order the query lists them; `SELECT DISTINCT`
  and `UNION` keep the first copy of each row (`distinct`).
* A recursive common table expression is evaluated the way SQLite documents it
  (https://sqlite.org/lang_with.html): the rows of the initial select are put in a queue;
  while the queue is not empty one row is taken out, added to the table, and the recursive
  select is run with that single row standing for the recursive table, its result being added
  to the queue.  With `UNION ALL` before the recursive select repeated rows are added again.
  The loop is `recursiveCte`; its fuel counts the rows it may still take out of the queue, and
  `none` means the fuel ran out before the queue was empty.
* SQLite runs a recursive table only when the join of the main select reaches it.  Which tables
  a query is made to read first is decided by the query planner from the schema and the
  statistics of the database file; a `Store` records the outcome in `plans`: whether the main
  select, when its other tables give no row among themselves, ends before the recursive table
  is run.  When they do give a row, every plan has to run the recursive table to its end.
* `LIKE` is SQLite's built-in operator (`likeMatch`), `ORDER BY LENGTH(name)` a sort by the
  number of characters that keeps rows of equal length in table order, and a `ContentDatabase`
  object is its member `m_completionModel`.
-/

namespace FoodRescue

/-! ## Strings -/

/-- A `QString`: a sequence of characters. -/
abbrev QString := List Char

/-- The Qt test `QChar::isSpace`: the ASCII characters tab, line feed, vertical tab, form feed,
carriage return and space, the controls U+0085 and U+00A0, and the Unicode separators
(categories Zs, Zl, Zp). -/
def isSpace (c : Char) : Bool :=
  let n := c.toNat
  n == 0x20 || (0x09 ≤ n && n ≤ 0x0d) || n == 0x85 || n == 0xa0 || n == 0x1680 ||
    (0x2000 ≤ n && n ≤ 0x200a) || n == 0x2028 || n == 0x2029 || n == 0x202f ||
    n == 0x205f || n == 0x3000

/-- The call `s.replace(before, after)` of `QString` for a one-character `before`: every
occurrence of the character is replaced by the string `after`. -/
def replaceChar (before : Char) (after : QString) (s : QString) : QString :=
  s.flatMap fun c => if c = before then after else [c]

/-- `QRegExp("[0-9 ]*").exactMatch(s)`: every character is a digit `0`-`9` or a space. -/
def spacedNumber (s : QString) : Bool :=
  s.all fun c => c.isDigit || c == ' '

/-- `QRegExp("[0-9]*").exactMatch(s)`: every character is a digit `0`-`9`. -/
def isNumber (s : QString) : Bool :=
  s.all fun c => c.isDigit

mutual
/-- First inner loop of `QString::simplified`: skip whitespace, then copy the next word. -/
def skipSpaces : QString → QString
  | [] => []
  | c :: src => if isSpace c then skipSpaces src else c :: copyWord src
/-- Second inner loop of `QString::simplified`: copy characters up to the next whitespace
character; if the input does not end there, write one space and go on skipping. -/
def copyWord : QString → QString
  | [] => []
  | c :: src => if isSpace c then ' ' :: skipSpaces src else c :: copyWord src
end

/-- Last statement of `QString::simplified`: a space written at the very end is dropped. -/
def dropTrailingSpace (out : QString) : QString :=
  if out.getLast? = some ' ' then out.dropLast else out

/-- `QString::simplified()`, following the loop of Qt's implementation: whitespace is skipped,
a word is copied, and one space is written after a word that is followed by more input; a
space left at the end is removed. -/
def simplified (s : QString) : QString :=
  dropTrailingSpace (skipSpaces s)

/-- `ContentDatabase::normalize`. -/
def normalize (searchTerm : QString) : QString :=
  if spacedNumber searchTerm then
    replaceChar ' ' [] searchTerm
  else
    simplified searchTerm

/-- The decimal value of a string of digits. -/
def digitsValue (s : QString) : Nat :=
  s.foldl (fun n c => 10 * n + (c.toNat - '0'.toNat)) 0

/-- `QString::toLongLong()` on the strings that reach it in `contentAsDocbook` (digits only):
the decimal value when the string is not empty and the value fits a signed 64-bit integer;
when the conversion fails the call returns 0. -/
def toLongLong (s : QString) : Int :=
  if s.isEmpty || !isNumber s then 0
  else if digitsValue s ≤ 2 ^ 63 - 1 then (digitsValue s : Int)
  else 0

/-! ### The normaliser as the specification words it -/

/-- Leading and trailing whitespace removed. -/
def trimWhitespace (s : QString) : QString :=
  (s.dropWhile isSpace).rdropWhile isSpace

/-- Every run of whitespace replaced by one space: a whitespace character followed by another
one is dropped, the last whitespace character of a run becomes a space. -/
def collapseRuns : QString → QString
  | [] => []
  | [c] => [if isSpace c then ' ' else c]
  | c :: d :: rest =>
    if isSpace c then
      if isSpace d then collapseRuns (d :: rest) else ' ' :: collapseRuns (d :: rest)
    else c :: collapseRuns (d :: rest)

/-- The normaliser of the specification: digits and spaces only, then all spaces removed;
otherwise trimmed, with inner whitespace runs collapsed. -/
def normalizeSpec (raw : QString) : QString :=
  if raw.all (fun c => c.isDigit || c == ' ') then raw.filter (fun c => c != ' ')
  else collapseRuns (trimWhitespace raw)

/-- Whether the last character of a string is whitespace. -/
def endsWithSpace (v : QString) : Bool :=
  match v.getLast? with
  | some c => isSpace c
  | none => false

/-! ## The database -/

/-- A row of table `products`. -/
structure Product where
  id : Nat
  code : Int
deriving DecidableEq

/-- A row of table `product_categories`. -/
structure ProductCategory where
  product_id : Nat
  category_id : Nat
deriving DecidableEq

/-- A row of table `categories`. -/
structure Category where
  id : Nat
  name : QString
  lang : QString
deriving DecidableEq

/-- A row of table `categories_structure`: category `category_id` has parent `parent_id`. -/
structure CategoryStructure where
  category_id : Nat
  parent_id : Nat
deriving DecidableEq

/-- A row of table `topics`. -/
structure Topic where
  id : Nat
  section_ : QString
  version : QString
deriving DecidableEq

/-- A row of table `topic_categories`. -/
structure TopicCategory where
  topic_id : Nat
  category_id : Nat
deriving DecidableEq

/-- A row of table `topic_contents`. -/
structure TopicContent where
  topic_id : Nat
  title : QString
  content : QString
deriving DecidableEq

/-- What the query plans of SQLite for this database file do when the tables that a main select
joins with its recursive table give no row among themselves: `true` when the plan reads an
empty part of them first, so that the query ends with no row and the recursive table is never
run; `false` when the plan runs the recursive table first.  One flag for the barcode query and
one for the category-name query. -/
structure QueryPlans where
  barcodeStopsEarly : Bool
  categoryStopsEarly : Bool

/-- The database file read by `ContentDatabase`: its tables, each as the list of its rows, and
the query plans that its schema and statistics lead to. -/
structure Store where
  products : List Product
  product_categories : List ProductCategory
  categories : List Category
  categories_structure : List CategoryStructure
  topics : List Topic
  topic_categories : List TopicCategory
  topic_contents : List TopicContent
  plans : QueryPlans

/-- A row of the result of either query of `contentAsDocbook`, in the order of the select list:
`title` (0), `section` (1), `version` (2), `content` (3), `categories.name` (4). -/
structure ResultRow where
  title : QString
  section_ : QString
  version : QString
  content : QString
  name : QString
deriving DecidableEq

/-- Rows without repetition, the first copy of each kept (`SELECT DISTINCT`, `UNION`). -/
def distinct {α : Type} [DecidableEq α] : List α → List α
  | [] => []
  | x :: xs => x :: (distinct xs).filter (fun y => decide (y ≠ x))

/-- SQLite's loop for a recursive common table expression joined by `UNION ALL`: take the
first row out of the queue, add it to the table, run the recursive select on that row and put
the result at the end of the queue; stop when the queue is empty.  `none`: the fuel ran out
with rows still queued. -/
def recursiveCte {Row : Type} (recursiveSelect : Row → List Row) :
    Nat → List Row → List Row → Option (List Row)
  | _, [], table => some table
  | 0, _ :: _, _ => none
  | fuel + 1, row :: queue, table =>
    recursiveCte recursiveSelect fuel (queue ++ recursiveSelect row) (table ++ [row])

/-! ### The barcode query -/

/-- A row of `all_product_categories (product_id, category_id)`; `product_id` is `none` when
the scalar subquery that fills it has no row (SQL `NULL`). -/
structure ProductCategoryRow where
  product_id : Option Nat
  category_id : Nat
deriving DecidableEq

/-- The scalar subquery `(SELECT id FROM products WHERE code = :code)`: the id of the first
product with that code, `NULL` when there is none. -/
def productIdSubquery (store : Store) (code : Int) : Option Nat :=
  (store.products.find? fun p => p.code == code).map fun p => p.id

/-- Initial select of `all_product_categories`:
`SELECT product_id, category_id FROM product_categories INNER JOIN products
 ON products.id = product_categories.product_id WHERE products.code = :code`. -/
def allProductCategoriesInitial (store : Store) (code : Int) : List ProductCategoryRow :=
  store.product_categories.flatMap fun pc =>
    store.products.flatMap fun p =>
      if p.id == pc.product_id && p.code == code then
        [{ product_id := some pc.product_id, category_id := pc.category_id }]
      else []

/-- Recursive select of `all_product_categories`, run on one row of the table:
`SELECT (SELECT id FROM products WHERE code = :code), categories_structure.parent_id
 FROM all_product_categories INNER JOIN categories_structure
 ON all_product_categories.category_id = categories_structure.category_id`. -/
def allProductCategoriesRecursive (store : Store) (code : Int) (row : ProductCategoryRow) :
    List ProductCategoryRow :=
  store.categories_structure.flatMap fun cs =>
    if row.category_id == cs.category_id then
      [{ product_id := productIdSubquery store code, category_id := cs.parent_id }]
    else []

/-- The table `all_product_categories` of the barcode query. -/
def all_product_categories (fuel : Nat) (store : Store) (code : Int) :
    Option (List ProductCategoryRow) :=
  recursiveCte (allProductCategoriesRecursive store code) fuel
    (allProductCategoriesInitial store code) []

/-- Main select of the barcode query over a given table `all_product_categories`:
`SELECT DISTINCT topic_contents.title, topics.section, topics.version, topic_contents.content,
 categories.name FROM products INNER JOIN all_product_categories ... INNER JOIN categories ...
 INNER JOIN topic_categories ... INNER JOIN topics ... INNER JOIN topic_contents ...
 WHERE products.code = :code`. -/
def barcodeSelect (store : Store) (code : Int) (apc : List ProductCategoryRow) :
    List ResultRow :=
  distinct <|
    store.products.flatMap fun p =>
    apc.flatMap fun a =>
    store.categories.flatMap fun c =>
    store.topic_categories.flatMap fun tcat =>
    store.topics.flatMap fun t =>
    store.topic_contents.flatMap fun tc =>
      if some p.id == a.product_id && a.category_id == c.id && c.id == tcat.category_id
          && tcat.topic_id == t.id && t.id == tc.topic_id && p.code == code then
        [{ title := tc.title, section_ := t.section_, version := t.version,
           content := tc.content, name := c.name }]
      else []

/-- The other tables of the main select of the barcode query, joined under the conditions that
do not mention `all_product_categories`: `products.code = :code`,
`categories.id = topic_categories.category_id`, `topic_categories.topic_id = topics.id` and
`topics.id = topic_contents.topic_id`. -/
def barcodeOtherTables (store : Store) (code : Int) :
    List (Product × Category × TopicCategory × Topic × TopicContent) :=
  store.products.flatMap fun p =>
  store.categories.flatMap fun c =>
  store.topic_categories.flatMap fun tcat =>
  store.topics.flatMap fun t =>
  store.topic_contents.flatMap fun tc =>
    if c.id == tcat.category_id && tcat.topic_id == t.id && t.id == tc.topic_id
        && p.code == code then
      [(p, c, tcat, t, tc)]
    else []

/-- The barcode query of `contentAsDocbook` with `:code` bound to `code`: the main select over
the finished table `all_product_categories`.  While the table is not finished there is no
result, unless the other tables give no row and the plan ends the query before running it. -/
def barcodeQuery (fuel : Nat) (store : Store) (code : Int) : Option (List ResultRow) :=
  match all_product_categories fuel store code with
  | some table => some (barcodeSelect store code table)
  | none =>
    if store.plans.barcodeStopsEarly && (barcodeOtherTables store code).isEmpty then some []
    else none

/-! ### The category-name query -/

/-- SQLite's `NOCASE` collation folds the 26 upper-case letters of ASCII. -/
def foldAscii (c : Char) : Char :=
  if 'A' ≤ c ∧ c ≤ 'Z' then Char.ofNat (c.toNat + 32) else c

/-- The comparison `a = b COLLATE NOCASE`. -/
def nocaseEq (a b : QString) : Bool :=
  a.map foldAscii == b.map foldAscii

/-- The table `var_1 (category_id)`:
`SELECT id FROM categories WHERE name = :name COLLATE NOCASE LIMIT 1`. -/
def var_1 (store : Store) (name : QString) : List Nat :=
  ((store.categories.filter fun c => nocaseEq c.name name).take 1).map fun c => c.id

/-- A row of `ancestor_categories (category_id, ancestor_id)`. -/
structure AncestorRow where
  category_id : Nat
  ancestor_id : Nat
deriving DecidableEq

/-- Initial select of `ancestor_categories`, a `UNION` of two selects:
`SELECT var_1.category_id, var_1.category_id FROM var_1` and
`SELECT categories_structure.category_id, categories_structure.parent_id
 FROM categories_structure, var_1 WHERE categories_structure.category_id = var_1.category_id`. -/
def ancestorCategoriesInitial (store : Store) (name : QString) : List AncestorRow :=
  distinct <|
    ((var_1 store name).map fun v => { category_id := v, ancestor_id := v }) ++
    (store.categories_structure.flatMap fun cs =>
      (var_1 store name).flatMap fun v =>
        if cs.category_id == v then
          [{ category_id := cs.category_id, ancestor_id := cs.parent_id }]
        else [])

/-- Recursive select of `ancestor_categories`, run on one row of the table:
`SELECT ancestor_categories.category_id, categories_structure.parent_id
 FROM ancestor_categories INNER JOIN categories_structure
 ON ancestor_categories.ancestor_id = categories_structure.category_id`. -/
def ancestorCategoriesRecursive (store : Store) (row : AncestorRow) : List AncestorRow :=
  store.categories_structure.flatMap fun cs =>
    if row.ancestor_id == cs.category_id then
      [{ category_id := row.category_id, ancestor_id := cs.parent_id }]
    else []

/-- The table `ancestor_categories` of the category-name query. -/
def ancestor_categories (fuel : Nat) (store : Store) (name : QString) :
    Option (List AncestorRow) :=
  recursiveCte (ancestorCategoriesRecursive store) fuel (ancestorCategoriesInitial store name) []

/-- Main select of the category-name query over a given table `ancestor_categories`:
`SELECT DISTINCT topic_contents.title, topics.section, topics.version, topic_contents.content,
 categories.name FROM categories, var_1 INNER JOIN ancestor_categories ...
 INNER JOIN topic_categories ... INNER JOIN topics ... INNER JOIN topic_contents ...
 WHERE categories.id = var_1.category_id`. -/
def categorySelect (store : Store) (name : QString) (ac : List AncestorRow) : List ResultRow :=
  distinct <|
    store.categories.flatMap fun c =>
    (var_1 store name).flatMap fun v =>
    ac.flatMap fun a =>
    store.topic_categories.flatMap fun tcat =>
    store.topics.flatMap fun t =>
    store.topic_contents.flatMap fun tc =>
      if a.category_id == c.id && a.ancestor_id == tcat.category_id && t.id == tcat.topic_id
          && tc.topic_id == t.id && c.id == v then
        [{ title := tc.title, section_ := t.section_, version := t.version,
           content := tc.content, name := c.name }]
      else []

/-- The other tables of the main select of the category-name query, joined under the
conditions that do not mention `ancestor_categories`: `categories.id = var_1.category_id`,
`topics.id = topic_categories.topic_id` and `topic_contents.topic_id = topics.id`. -/
def categoryOtherTables (store : Store) (name : QString) :
    List (Category × Nat × TopicCategory × Topic × TopicContent) :=
  store.categories.flatMap fun c =>
  (var_1 store name).flatMap fun v =>
  store.topic_categories.flatMap fun tcat =>
  store.topics.flatMap fun t =>
  store.topic_contents.flatMap fun tc =>
    if t.id == tcat.topic_id && tc.topic_id == t.id && c.id == v then
      [(c, v, tcat, t, tc)]
    else []

/-- The category-name query of `contentAsDocbook` with `:name` bound to `name`: the main select
over the finished table `ancestor_categories`.  While the table is not finished there is no
result, unless the other tables give no row and the plan ends the query before running it. -/
def categoryQuery (fuel : Nat) (store : Store) (name : QString) : Option (List ResultRow) :=
  match ancestor_categories fuel store name with
  | some table => some (categorySelect store name table)
  | none =>
    if store.plans.categoryStopsEarly && (categoryOtherTables store name).isEmpty then some []
    else none

/-! ### Rendering and the entry points -/

/-- One turn of the `while (query.next())` loop: the `<topic>` element of the current row is
appended to `docbook`. -/
def appendTopic (docbook : QString) (row : ResultRow) : QString :=
  docbook ++ "<topic type=\"".toList ++ row.section_ ++ "\">\n".toList
    ++ "<info>\n".toList
    ++ "<title>".toList ++ row.title ++ "</title>\n".toList
    ++ "<edition><date>".toList ++ row.version ++ "</date></edition>".toList
    ++ "</info>\n".toList
    ++ row.content
    ++ "</topic>\n\n".toList

/-- The rendering part of `contentAsDocbook`: the loop over the result rows, then the empty
string for an empty `docbook` and the `<book>` wrapper otherwise. -/
def renderDocbook (rows : List ResultRow) : QString :=
  let docbook := rows.foldl appendTopic []
  if docbook.isEmpty then []
  else
    "<book xmlns=\"http://docbook.org/ns/docbook\" version=\"5.1\">\n".toList ++ docbook
      ++ "</book>".toList

/-- `ContentDatabase::contentAsDocbook`.  `db = none` is a database on which `query.exec()`
fails; the result `none` is a query that has not returned within `fuel`. -/
def contentAsDocbook (fuel : Nat) (db : Option Store) (searchTerm : QString) :
    Option QString :=
  match db with
  | none => some []
  | some store =>
    let result :=
      if isNumber searchTerm then barcodeQuery fuel store (toLongLong searchTerm)
      else categoryQuery fuel store searchTerm
    result.map renderDocbook

/-- The formats of `content`. -/
inductive ContentFormat where
  | DOCBOOK
  | HTML
deriving DecidableEq

/-- The stylesheet processor `QXmlQuery` loaded with `docbook-to-qthtml.xsl`: whether the query
is valid, and for a focus document the success flag returned by `evaluateTo` together with
the string it leaves in `html`. -/
structure XmlQuery where
  isValid : Bool
  evaluateTo : QString → Bool × QString

/-- `ContentDatabase::content`. -/
def content (query : XmlQuery) (fuel : Nat) (db : Option Store) (searchTerm : QString)
    (format : ContentFormat) : Option QString :=
  (contentAsDocbook fuel db searchTerm).map fun docbook =>
    if format = ContentFormat.DOCBOOK then docbook
    else if docbook.isEmpty then []
    else (query.evaluateTo docbook).2

/-! ### Notions of the specification -/

/-- The parent-link relation of `categories_structure`: `p` is a parent of `c`. -/
def ParentOf (store : Store) (c p : Nat) : Prop :=
  ∃ cs ∈ store.categories_structure, cs.category_id = c ∧ cs.parent_id = p

/-- The parent-link relation is acyclic: no category is a transitive parent of itself. -/
def Acyclic (store : Store) : Prop :=
  ∀ c, ¬ Relation.TransGen (ParentOf store) c c

/-- Category id `c` is in the closure of the products with code `code`: it is directly
assigned to such a product, or it is a transitive parent of a directly assigned category. -/
def InProductClosure (store : Store) (code : Int) (c : Nat) : Prop :=
  ∃ p ∈ store.products, p.code = code ∧
    ∃ pc ∈ store.product_categories, pc.product_id = p.id ∧
      Relation.ReflTransGen (ParentOf store) pc.category_id c

/-- Some topic of the store with the given title, section, version and content is linked to
category id `c` by `topic_categories`. -/
def TopicLinked (store : Store) (c : Nat) (title section_ version content : QString) : Prop :=
  ∃ t ∈ store.topics, ∃ tc ∈ store.topic_contents, ∃ l ∈ store.topic_categories,
    l.topic_id = t.id ∧ l.category_id = c ∧ tc.topic_id = t.id ∧
    title = tc.title ∧ section_ = t.section_ ∧ version = t.version ∧ content = tc.content

/-- The `<topic>` element of one result row: the section as the `type` attribute, the title,
the version as the date, and the content as it is. -/
def topicElement (row : ResultRow) : QString :=
  "<topic type=\"".toList ++ row.section_ ++ "\">\n<info>\n<title>".toList ++ row.title
    ++ "</title>\n<edition><date>".toList ++ row.version
    ++ "</date></edition></info>\n".toList ++ row.content ++ "</topic>\n\n".toList

/-- The opening tag of the `<book>` container. -/
def bookHeader : QString :=
  "<book xmlns=\"http://docbook.org/ns/docbook\" version=\"5.1\">\n".toList

/-- The document of the specification for a sequence of rows: absent (empty) for no rows,
otherwise one `<book>` container holding the `<topic>` elements of the rows in their order. -/
def bookOf (rows : List ResultRow) : QString :=
  if rows.isEmpty then []
  else bookHeader ++ (rows.map topicElement).flatten ++ "</book>".toList

/-! ### Stores used as examples -/

/-- The end-to-end store of the specification: product 40001765 in category Dairy, whose
parent is Food; topic T1 is linked to Dairy and topic T2 to Food. -/
def dairyStore : Store where
  products := [{ id := 1, code := 40001765 }]
  product_categories := [{ product_id := 1, category_id := 10 }]
  categories := [{ id := 10, name := "Dairy".toList, lang := "en".toList },
                 { id := 11, name := "Food".toList, lang := "en".toList }]
  categories_structure := [{ category_id := 10, parent_id := 11 }]
  topics := [{ id := 100, section_ := "risks".toList, version := "2020-01-01".toList },
             { id := 101, section_ := "storage".toList, version := "2020-02-02".toList }]
  topic_categories := [{ topic_id := 100, category_id := 10 },
                       { topic_id := 101, category_id := 11 }]
  topic_contents := [{ topic_id := 100, title := "T1".toList, content := "<para>a</para>".toList },
                     { topic_id := 101, title := "T2".toList, content := "<para>b</para>".toList }]
  plans := { barcodeStopsEarly := true, categoryStopsEarly := true }

/-- A store whose parent links form the cycle Apples → Bananas → Apples; product 123 is
directly assigned to Apples. -/
def cycleStore : Store where
  products := [{ id := 1, code := 123 }]
  product_categories := [{ product_id := 1, category_id := 1 }]
  categories := [{ id := 1, name := "Apples".toList, lang := "en".toList },
                 { id := 2, name := "Bananas".toList, lang := "en".toList }]
  categories_structure := [{ category_id := 1, parent_id := 2 },
                           { category_id := 2, parent_id := 1 }]
  topics := [{ id := 100, section_ := "risks".toList, version := "2020-01-01".toList }]
  topic_categories := [{ topic_id := 100, category_id := 2 }]
  topic_contents := [{ topic_id := 100, title := "T1".toList, content := "<para>a</para>".toList }]
  plans := { barcodeStopsEarly := true, categoryStopsEarly := true }

/-- The store `dairyStore` with a single topic T1 that is linked to both Dairy and Food. -/
def sharedTopicStore : Store where
  products := [{ id := 1, code := 40001765 }]
  product_categories := [{ product_id := 1, category_id := 10 }]
  categories := [{ id := 10, name := "Dairy".toList, lang := "en".toList },
                 { id := 11, name := "Food".toList, lang := "en".toList }]
  categories_structure := [{ category_id := 10, parent_id := 11 }]
  topics := [{ id := 100, section_ := "risks".toList, version := "2020-01-01".toList }]
  topic_categories := [{ topic_id := 100, category_id := 10 },
                       { topic_id := 100, category_id := 11 }]
  topic_contents := [{ topic_id := 100, title := "T1".toList, content := "<para>a</para>".toList }]
  plans := { barcodeStopsEarly := true, categoryStopsEarly := true }

/-- The result row of topic T1 of `sharedTopicStore`, reached through the named category. -/
def t1Row (name : QString) : ResultRow where
  title := "T1".toList
  section_ := "risks".toList
  version := "2020-01-01".toList
  content := "<para>a</para>".toList
  name := name

/-- A store whose only product has code 0, in category Misc with one topic. -/
def zeroCodeStore : Store where
  products := [{ id := 1, code := 0 }]
  product_categories := [{ product_id := 1, category_id := 10 }]
  categories := [{ id := 10, name := "Misc".toList, lang := "en".toList }]
  categories_structure := []
  topics := [{ id := 100, section_ := "risks".toList, version := "2020-01-01".toList }]
  topic_categories := [{ topic_id := 100, category_id := 10 }]
  topic_contents := [{ topic_id := 100, title := "T1".toList, content := "<para>a</para>".toList }]
  plans := { barcodeStopsEarly := true, categoryStopsEarly := true }

/-- The store `cycleStore` without any topic link, with a given pair of query plans. -/
def cycleStoreWithoutLinks (plans : QueryPlans) : Store :=
  { cycleStore with topic_categories := [], plans := plans }

/-- A store whose only product has the code 9223372036854775808 (2^63), directly in category
Dairy, to which topic T1 is linked. -/
def longCodeStore : Store where
  products := [{ id := 1, code := 9223372036854775808 }]
  product_categories := [{ product_id := 1, category_id := 10 }]
  categories := [{ id := 10, name := "Dairy".toList, lang := "en".toList }]
  categories_structure := []
  topics := [{ id := 100, section_ := "risks".toList, version := "2020-01-01".toList }]
  topic_categories := [{ topic_id := 100, category_id := 10 }]
  topic_contents := [{ topic_id := 100, title := "T1".toList, content := "<para>a</para>".toList }]
  plans := { barcodeStopsEarly := true, categoryStopsEarly := true }

/-- A stylesheet processor that succeeds and returns its input. -/
def identityQuery : XmlQuery where
  isValid := true
  evaluateTo := fun docbook => (true, docbook)

/-- A stylesheet processor whose stylesheet could not be loaded: the query is invalid,
`evaluateTo` returns false and leaves `html` empty. -/
def failingQuery : XmlQuery where
  isValid := false
  evaluateTo := fun _ => (false, [])

/-! ### The form of a simplified string -/

mutual
/-- The form of the output of `skipSpaces`: no whitespace at the start, then `wordNormal`. -/
def skipNormal : QString → Bool
  | [] => true
  | c :: t => !isSpace c && wordNormal t
/-- The form of the output of `copyWord`: every whitespace character is a space and is followed
by a character that is not whitespace, or by the end. -/
def wordNormal : QString → Bool
  | [] => true
  | c :: t => if isSpace c then c == ' ' && skipNormal t else wordNormal t
end

/-! ## Completions -/

/-- Whether `f` accepts the string or one of its suffixes: the characters a `%` may skip. -/
def anySuffix (f : QString → Bool) : QString → Bool
  | [] => f []
  | c :: s => f (c :: s) || anySuffix f s

/-- SQLite's `string LIKE pattern` without `ESCAPE`: `%` stands for any sequence of characters,
`_` for any one character, and any other character is compared with the letters of ASCII
folded. -/
def likeMatch : QString → QString → Bool
  | [], s => s.isEmpty
  | p :: pattern, s =>
    if p = '%' then anySuffix (likeMatch pattern) s
    else
      match s with
      | [] => false
      | c :: rest => (p == '_' || foldAscii p == foldAscii c) && likeMatch pattern rest

/-- The clause `LIMIT :limit`: a negative limit is no limit. -/
def applyLimit {α : Type} (limit : Int) (rows : List α) : List α :=
  if limit < 0 then rows else rows.take limit.toNat

/-- The rows of `SELECT name FROM categories WHERE lang LIKE 'en%' AND name LIKE :searchTerm`,
before ordering and limit. -/
def completionCandidates (store : Store) (searchTerm : QString) : List QString :=
  (store.categories.filter fun c =>
    likeMatch "en%".toList c.lang && likeMatch searchTerm c.name).map fun c => c.name

/-- The query of `updateCompletions`: the candidates, `ORDER BY LENGTH(name)` (rows of equal
length stay in table order), `LIMIT :limit`. -/
def completionQuery (store : Store) (searchTerm : QString) (limit : Int) : List QString :=
  applyLimit limit
    ((completionCandidates store searchTerm).insertionSort fun a b => a.length ≤ b.length)

/-- The state of a `ContentDatabase` object: the member `m_completionModel`. -/
structure ContentDatabase where
  m_completionModel : List QString

/-- `ContentDatabase::updateCompletions`.  The call `fragments.replace(" ", "%")` changes
`fragments` itself, so the emptiness test sees the replaced string.  `db = none` is a database
on which `query.exec()` fails. -/
def updateCompletions (db : Option Store) (self : ContentDatabase) (fragments : QString)
    (limit : Int) : ContentDatabase :=
  let fragments := replaceChar ' ' ['%'] fragments
  let searchTerm := ['%'] ++ fragments ++ ['%']
  let self := { self with m_completionModel := [] }
  if fragments.isEmpty then self
  else
    match db with
    | some store =>
      { self with
        m_completionModel := self.m_completionModel ++ completionQuery store searchTerm limit }
    | none => self

/-- The fragments of a completion input: the pieces between its spaces. -/
def splitSpaces : QString → List QString
  | [] => [[]]
  | c :: s =>
    if c = ' ' then [] :: splitSpaces s
    else
      match splitSpaces s with
      | [] => [[c]]
      | w :: ws => (c :: w) :: ws

/-- The fragments occur in the name as substrings, one after the other in the given order,
letters of ASCII compared without case. -/
def OccurInOrder : List QString → QString → Prop
  | [], _ => True
  | f :: fs, name =>
    ∃ pre mid post, name = pre ++ mid ++ post ∧ mid.map foldAscii = f.map foldAscii ∧
      OccurInOrder fs post

/-- The language tag is English: it starts with `en`, in either case. -/
def IsEnglish (lang : QString) : Prop :=
  (lang.take 2).map foldAscii = ['e', 'n']

/-- The categories of the completion example: Soup, Soup Mix and Canned Soup, and a German
entry. -/
def soupStore : Store where
  products := []
  product_categories := []
  categories := [{ id := 1, name := "Soup Mix".toList, lang := "en".toList },
                 { id := 2, name := "Canned Soup".toList, lang := "en".toList },
                 { id := 3, name := "Soup".toList, lang := "en".toList },
                 { id := 4, name := "Suppe".toList, lang := "de".toList }]
  categories_structure := []
  topics := []
  topic_categories := []
  topic_contents := []
  plans := { barcodeStopsEarly := true, categoryStopsEarly := true }

/-- A store with the single English category `axb`. -/
def axbStore : Store where
  products := []
  product_categories := []
  categories := [{ id := 1, name := "axb".toList, lang := "en".toList }]
  categories_structure := []
  topics := []
  topic_categories := []
  topic_contents := []
  plans := { barcodeStopsEarly := true, categoryStopsEarly := true }


/-! ## The normaliser -/

theorem isSpace_space : isSpace ' ' = true := by decide

theorem collapseRuns_cons_space (c : Char) (s : QString) (hc : isSpace c = true) :
    collapseRuns (c :: s) = ' ' :: collapseRuns (s.dropWhile isSpace) := by
  induction s generalizing c with
  | nil => simp [collapseRuns, hc]
  | cons d rest ih =>
    by_cases hd : isSpace d = true
    · simp [collapseRuns, hc, hd, ih d hd, List.dropWhile_cons]
    · simp [collapseRuns, hc, hd, List.dropWhile_cons]

theorem collapseRuns_cons_word (c : Char) (s : QString) (hc : isSpace c = false) :
    collapseRuns (c :: s) = c :: collapseRuns s := by
  cases s <;> simp [collapseRuns, hc]

theorem copyWord_skipSpaces_eq (s : QString) :
    copyWord s = collapseRuns s ∧ skipSpaces s = collapseRuns (s.dropWhile isSpace) := by
  induction s with
  | nil => simp [copyWord, skipSpaces, collapseRuns]
  | cons c s ih =>
    by_cases hc : isSpace c = true
    · simp [copyWord, skipSpaces, hc, ih.2, collapseRuns_cons_space c s hc, List.dropWhile_cons]
    · have hc' : isSpace c = false := by simpa using hc
      simp [copyWord, skipSpaces, hc', ih.1, collapseRuns_cons_word c s hc', List.dropWhile_cons]

theorem endsWithSpace_cons_cons (d e : Char) (v : QString) :
    endsWithSpace (d :: e :: v) = endsWithSpace (e :: v) := by
  simp [endsWithSpace, List.getLast?_cons_cons]

theorem collapseRuns_concat (v : QString) (c : Char) :
    collapseRuns (v ++ [c]) =
      if isSpace c then
        (if endsWithSpace v then collapseRuns v else collapseRuns v ++ [' '])
      else collapseRuns v ++ [c] := by
  induction v with
  | nil => by_cases hc : isSpace c = true <;> simp [collapseRuns, endsWithSpace, hc]
  | cons d v ih =>
    cases v with
    | nil =>
      by_cases hc : isSpace c = true <;> by_cases hd : isSpace d = true <;>
        simp [collapseRuns, endsWithSpace, hc, hd]
    | cons e v =>
      have ih' : collapseRuns (e :: (v ++ [c])) = _ := ih
      rw [endsWithSpace_cons_cons]
      by_cases hc : isSpace c = true <;> by_cases hd : isSpace d = true <;>
        by_cases he : isSpace e = true <;>
        by_cases hv : endsWithSpace (e :: v) = true <;>
        simp [collapseRuns, hc, hd, he, hv, ih'] at *

theorem collapseRuns_concat_word (v : QString) (c : Char) (hc : isSpace c = false) :
    collapseRuns (v ++ [c]) = collapseRuns v ++ [c] := by
  rw [collapseRuns_concat]; simp [hc]

theorem endsWithSpace_concat (v : QString) (c : Char) :
    endsWithSpace (v ++ [c]) = isSpace c := by
  simp [endsWithSpace]

theorem collapseRuns_getLast_ne_space (v : QString) (h : endsWithSpace v = false) :
    (collapseRuns v).getLast? ≠ some ' ' := by
  induction v using List.reverseRecOn with
  | nil => simp [collapseRuns]
  | append_singleton v c _ =>
    rw [endsWithSpace_concat] at h
    rw [collapseRuns_concat]
    simp only [h, Bool.false_eq_true, if_false, List.getLast?_append, List.getLast?_singleton]
    intro hc
    simp at hc
    rw [hc, isSpace_space] at h
    exact Bool.noConfusion h

theorem rdropWhile_of_not_endsWithSpace (v : QString) (h : endsWithSpace v = false) :
    v.rdropWhile isSpace = v := by
  induction v using List.reverseRecOn with
  | nil => rfl
  | append_singleton v c _ =>
    rw [endsWithSpace_concat] at h
    rw [List.rdropWhile_concat]
    simp [h]

theorem dropTrailingSpace_collapseRuns (u : QString) :
    dropTrailingSpace (collapseRuns u) = collapseRuns (u.rdropWhile isSpace) := by
  induction u using List.reverseRecOn with
  | nil => simp [collapseRuns, dropTrailingSpace]
  | append_singleton v c ih =>
    rw [collapseRuns_concat, List.rdropWhile_concat]
    by_cases hc : isSpace c = true
    · simp only [hc, if_true]
      by_cases hv : endsWithSpace v = true
      · simp only [hv, if_true]
        exact ih
      · have hv' : endsWithSpace v = false := by simpa using hv
        simp only [hv', Bool.false_eq_true, if_false]
        rw [rdropWhile_of_not_endsWithSpace v hv']
        simp [dropTrailingSpace]
    · have hc' : isSpace c = false := by simpa using hc
      simp only [hc', Bool.false_eq_true, if_false]
      rw [← collapseRuns_concat_word v c hc']
      have := collapseRuns_getLast_ne_space (v ++ [c]) (by rw [endsWithSpace_concat]; exact hc')
      simp [dropTrailingSpace, this]

theorem simplified_eq_collapse_trim (s : QString) :
    simplified s = collapseRuns (trimWhitespace s) := by
  unfold simplified trimWhitespace
  rw [(copyWord_skipSpaces_eq s).2, dropTrailingSpace_collapseRuns]

theorem replaceChar_nil_eq_filter (s : QString) :
    replaceChar ' ' [] s = s.filter (fun c => c != ' ') := by
  induction s with
  | nil => rfl
  | cons c s ih =>
    unfold replaceChar at ih ⊢
    by_cases hc : c = ' '
    · subst hc; simpa using ih
    · simp [List.flatMap_cons, List.filter_cons, hc, ih]

/-- C5: `normalize` is the normaliser of the specification on every string, and gives the three
stated results. -/
theorem normalize_eq_normalizeSpec :
    (∀ raw : QString, normalize raw = normalizeSpec raw) ∧
      normalize "".toList = "".toList ∧
      normalize "123 456".toList = "123456".toList ∧
      normalize "  Canned Food  ".toList = "Canned Food".toList := by
  refine ⟨fun raw => ?_, by decide, by decide, by decide⟩
  unfold normalize normalizeSpec spacedNumber
  split
  · exact replaceChar_nil_eq_filter raw
  · exact simplified_eq_collapse_trim raw


/-! ## Rows without repetition -/

theorem mem_distinct {α : Type} [DecidableEq α] (l : List α) (a : α) :
    a ∈ distinct l ↔ a ∈ l := by
  induction l with
  | nil => simp [distinct]
  | cons x xs ih =>
    by_cases h : a = x
    · simp [distinct, h]
    · simp [distinct, h, ih]

theorem nodup_distinct {α : Type} [DecidableEq α] (l : List α) : (distinct l).Nodup := by
  induction l with
  | nil => simp [distinct]
  | cons x xs ih =>
    simp only [distinct, List.nodup_cons, List.mem_filter, decide_eq_true_eq]
    exact ⟨fun h => h.2 rfl, ih.filter _⟩

/-! ## The loop of a recursive table -/

theorem recursiveCte_mono {Row : Type} (step : Row → List Row) :
    ∀ (fuel : Nat) (queue table result : List Row),
      recursiveCte step fuel queue table = some result →
      ∀ fuel', fuel ≤ fuel' → recursiveCte step fuel' queue table = some result := by
  intro fuel
  induction fuel with
  | zero =>
    intro queue table result h fuel' _
    cases queue with
    | nil => cases fuel' <;> simpa [recursiveCte] using h
    | cons r q => simp [recursiveCte] at h
  | succ n ih =>
    intro queue table result h fuel' hle
    cases queue with
    | nil => cases fuel' <;> simpa [recursiveCte] using h
    | cons r q =>
      cases fuel' with
      | zero => omega
      | succ m =>
        simp only [recursiveCte] at h ⊢
        exact ih _ _ _ h m (by omega)

/-- A finished recursive table holds the rows it started with and every row that the recursive
select derives, in any number of rounds, from a queued row. -/
theorem recursiveCte_mem {Row : Type} (step : Row → List Row) :
    ∀ (fuel : Nat) (queue table result : List Row),
      recursiveCte step fuel queue table = some result →
      ∀ r, r ∈ result ↔
        r ∈ table ∨ ∃ s ∈ queue, Relation.ReflTransGen (fun a b => b ∈ step a) s r := by
  intro fuel
  induction fuel with
  | zero =>
    intro queue table result h r
    cases queue with
    | nil =>
      simp only [recursiveCte, Option.some.injEq] at h
      subst h; simp
    | cons r0 q => simp [recursiveCte] at h
  | succ n ih =>
    intro queue table result h r
    cases queue with
    | nil =>
      simp only [recursiveCte, Option.some.injEq] at h
      subst h; simp
    | cons r0 q =>
      simp only [recursiveCte] at h
      rw [ih _ _ _ h r]
      constructor
      · rintro (hr | ⟨s, hs, hsr⟩)
        · rcases List.mem_append.1 hr with hr | hr
          · exact Or.inl hr
          · have : r = r0 := by simpa using hr
            subst this
            exact Or.inr ⟨r, List.mem_cons_self _ _, Relation.ReflTransGen.refl⟩
        · rcases List.mem_append.1 hs with hs | hs
          · exact Or.inr ⟨s, List.mem_cons_of_mem _ hs, hsr⟩
          · exact Or.inr ⟨r0, List.mem_cons_self _ _, Relation.ReflTransGen.head hs hsr⟩
      · rintro (hr | ⟨s, hs, hsr⟩)
        · exact Or.inl (List.mem_append_left _ hr)
        · rcases List.mem_cons.1 hs with hs | hs
          · subst hs
            rcases Relation.ReflTransGen.cases_head hsr with heq | ⟨m, hm, hmr⟩
            · subst heq
              exact Or.inl (List.mem_append_right _ (List.mem_singleton_self _))
            · exact Or.inr ⟨m, List.mem_append_right _ hm, hmr⟩
          · exact Or.inr ⟨s, List.mem_append_left _ hs, hsr⟩

/-- The weight of a queue: a row of rank `k` counts `(bound + 1) ^ k`. -/
theorem recursiveCte_weight_step {Row : Type} (step : Row → List Row) (rank : Row → Nat)
    (bound : Nat) (hlen : ∀ r, (step r).length ≤ bound)
    (hrank : ∀ r r', r' ∈ step r → rank r' < rank r) (r : Row) :
    ((step r).map fun x => (bound + 1) ^ rank x).sum < (bound + 1) ^ rank r := by
  by_cases h0 : rank r = 0
  · have hnil : step r = [] := by
      cases hs : step r with
      | nil => rfl
      | cons x xs =>
        have := hrank r x (by rw [hs]; exact List.mem_cons_self _ _)
        omega
    simp [hnil]
  · obtain ⟨k, hk⟩ : ∃ k, rank r = k + 1 := ⟨rank r - 1, by omega⟩
    have hle : ((step r).map fun x => (bound + 1) ^ rank x).sum
        ≤ (step r).length * (bound + 1) ^ k := by
      have : ∀ l : List Row, (∀ x ∈ l, rank x ≤ k) →
          (l.map fun x => (bound + 1) ^ rank x).sum ≤ l.length * (bound + 1) ^ k := by
        intro l
        induction l with
        | nil => intro _; simp
        | cons x xs ih =>
          intro hl
          have h1 : (bound + 1) ^ rank x ≤ (bound + 1) ^ k :=
            Nat.pow_le_pow_right (by omega) (hl x (List.mem_cons_self _ _))
          have h2 := ih fun y hy => hl y (List.mem_cons_of_mem _ hy)
          simp only [List.map_cons, List.sum_cons, List.length_cons]
          rw [Nat.succ_mul]
          omega
      exact this _ fun x hx => by have := hrank r x hx; omega
    have hpos : 0 < (bound + 1) ^ k := Nat.pow_pos (by omega)
    calc ((step r).map fun x => (bound + 1) ^ rank x).sum
        ≤ (step r).length * (bound + 1) ^ k := hle
      _ ≤ bound * (bound + 1) ^ k := Nat.mul_le_mul_right _ (hlen r)
      _ < (bound + 1) * (bound + 1) ^ k := by
          rw [Nat.succ_mul]; omega
      _ = (bound + 1) ^ rank r := by rw [hk, pow_succ, Nat.mul_comm]

/-- When every round of the recursive select lowers a rank and yields at most `bound` rows,
the loop empties its queue within the weight of the queue. -/
theorem recursiveCte_terminates {Row : Type} (step : Row → List Row) (rank : Row → Nat)
    (bound : Nat) (hlen : ∀ r, (step r).length ≤ bound)
    (hrank : ∀ r r', r' ∈ step r → rank r' < rank r) :
    ∀ (fuel : Nat) (queue table : List Row),
      (queue.map fun x => (bound + 1) ^ rank x).sum ≤ fuel →
      ∃ result, recursiveCte step fuel queue table = some result := by
  intro fuel
  induction fuel with
  | zero =>
    intro queue table h
    cases queue with
    | nil => exact ⟨table, rfl⟩
    | cons r q =>
      have hpos : 0 < (bound + 1) ^ rank r := Nat.pow_pos (by omega)
      simp only [List.map_cons, List.sum_cons] at h
      omega
  | succ n ih =>
    intro queue table h
    cases queue with
    | nil => exact ⟨table, rfl⟩
    | cons r q =>
      simp only [recursiveCte]
      apply ih
      have hstep := recursiveCte_weight_step step rank bound hlen hrank r
      simp only [List.map_cons, List.sum_cons] at h
      simp only [List.map_append, List.sum_append]
      omega

/-- When some queued row satisfies `P` and the recursive select derives from every row with
`P` another row with `P`, the queue is never empty: the loop runs out of any fuel. -/
theorem recursiveCte_diverges {Row : Type} (step : Row → List Row) (P : Row → Prop)
    (hstep : ∀ r, P r → ∃ r' ∈ step r, P r') :
    ∀ (fuel : Nat) (queue table : List Row),
      (∃ r ∈ queue, P r) → recursiveCte step fuel queue table = none := by
  intro fuel
  induction fuel with
  | zero =>
    intro queue table h
    cases queue with
    | nil => simp at h
    | cons r q => rfl
  | succ n ih =>
    intro queue table h
    cases queue with
    | nil => simp at h
    | cons r0 q =>
      simp only [recursiveCte]
      apply ih
      obtain ⟨r, hr, hP⟩ := h
      rcases List.mem_cons.1 hr with hr | hr
      · subst hr
        obtain ⟨r', hr', hP'⟩ := hstep r hP
        exact ⟨r', List.mem_append_right _ hr', hP'⟩
      · exact ⟨r, List.mem_append_left _ hr, hP⟩


/-! ## Acyclic parent links have a rank -/

theorem exists_rank_of_acyclic (store : Store) (h : Acyclic store) :
    ∃ rank : Nat → Nat, ∀ c p, ParentOf store c p → rank p < rank c := by
  classical
  let parents : Finset Nat := (store.categories_structure.map fun cs => cs.parent_id).toFinset
  refine ⟨fun c => (parents.filter fun x => Relation.TransGen (ParentOf store) c x).card, ?_⟩
  intro c p hcp
  apply Finset.card_lt_card
  rw [Finset.ssubset_iff_of_subset]
  · refine ⟨p, ?_, ?_⟩
    · obtain ⟨cs, hcs, _, hp⟩ := hcp
      have hmem : p ∈ parents := by
        simp only [parents, List.mem_toFinset, List.mem_map]
        exact ⟨cs, hcs, hp⟩
      exact Finset.mem_filter.2 ⟨hmem, Relation.TransGen.single ⟨cs, hcs, ‹_›, hp⟩⟩
    · intro hp
      exact h p (Finset.mem_filter.1 hp).2
  · intro x hx
    have hx' := Finset.mem_filter.1 hx
    exact Finset.mem_filter.2 ⟨hx'.1, Relation.TransGen.head hcp hx'.2⟩

theorem length_flatMap_le_length {α β : Type} (l : List α) (f : α → List β)
    (hf : ∀ x, (f x).length ≤ 1) : (l.flatMap f).length ≤ l.length := by
  induction l with
  | nil => simp
  | cons x xs ih =>
    have := hf x
    simp only [List.flatMap_cons, List.length_append, List.length_cons]
    omega

/-! ## The table `all_product_categories` -/

theorem mem_allProductCategoriesRecursive (store : Store) (code : Int)
    (r r' : ProductCategoryRow) :
    r' ∈ allProductCategoriesRecursive store code r ↔
      r'.product_id = productIdSubquery store code ∧
        ParentOf store r.category_id r'.category_id := by
  unfold allProductCategoriesRecursive ParentOf
  simp only [List.mem_flatMap]
  constructor
  · rintro ⟨cs, hcs, hmem⟩
    split at hmem
    · rename_i heq
      have heq' : r.category_id = cs.category_id := by simpa using heq
      have hr : r' = _ := List.mem_singleton.1 hmem
      subst hr
      exact ⟨rfl, cs, hcs, heq'.symm, rfl⟩
    · simp at hmem
  · rintro ⟨hp, cs, hcs, hc, hpar⟩
    refine ⟨cs, hcs, ?_⟩
    rw [if_pos (by simpa using hc.symm)]
    cases r'
    simp_all

theorem mem_allProductCategoriesInitial (store : Store) (code : Int) (r : ProductCategoryRow) :
    r ∈ allProductCategoriesInitial store code ↔
      ∃ p ∈ store.products, p.code = code ∧
        ∃ pc ∈ store.product_categories, pc.product_id = p.id ∧
          r = { product_id := some p.id, category_id := pc.category_id } := by
  unfold allProductCategoriesInitial
  simp only [List.mem_flatMap]
  constructor
  · rintro ⟨pc, hpc, p, hp, hmem⟩
    split at hmem
    · rename_i heq
      simp only [Bool.and_eq_true, beq_iff_eq] at heq
      have hr : r = _ := List.mem_singleton.1 hmem
      exact ⟨p, hp, heq.2, pc, hpc, heq.1.symm, by rw [hr, heq.1]⟩
    · simp at hmem
  · rintro ⟨p, hp, hcode, pc, hpc, hid, hr⟩
    refine ⟨pc, hpc, p, hp, ?_⟩
    rw [if_pos (by simp [hid, hcode])]
    rw [hr, hid]
    exact List.mem_singleton_self _

/-- Rows derived from a row of `all_product_categories`: the row itself, and for every
transitive parent of its category a row carrying the product id of the scalar subquery. -/
theorem reach_allProductCategories (store : Store) (code : Int) (s r : ProductCategoryRow) :
    Relation.ReflTransGen (fun a b => b ∈ allProductCategoriesRecursive store code a) s r ↔
      r = s ∨ (r.product_id = productIdSubquery store code ∧
        Relation.TransGen (ParentOf store) s.category_id r.category_id) := by
  constructor
  · intro h
    induction h with
    | refl => exact Or.inl rfl
    | tail _ hbc ih =>
      rw [mem_allProductCategoriesRecursive] at hbc
      rcases ih with ih | ih
      · subst ih
        exact Or.inr ⟨hbc.1, Relation.TransGen.single hbc.2⟩
      · exact Or.inr ⟨hbc.1, Relation.TransGen.tail ih.2 hbc.2⟩
  · rintro (h | ⟨hp, h⟩)
    · subst h; exact Relation.ReflTransGen.refl
    · have key : ∀ c, Relation.TransGen (ParentOf store) s.category_id c →
          Relation.ReflTransGen (fun a b => b ∈ allProductCategoriesRecursive store code a) s
            { product_id := productIdSubquery store code, category_id := c } := by
        intro c hc
        induction hc with
        | single hsc =>
          exact Relation.ReflTransGen.single
            ((mem_allProductCategoriesRecursive store code _ _).2 ⟨rfl, hsc⟩)
        | tail _ hbc ih =>
          exact Relation.ReflTransGen.tail ih
            ((mem_allProductCategoriesRecursive store code _ _).2 ⟨rfl, hbc⟩)
      have := key r.category_id h
      rw [← hp] at this
      exact this

theorem all_product_categories_terminates (store : Store) (code : Int) (h : Acyclic store) :
    ∃ fuel₀ table, ∀ fuel, fuel₀ ≤ fuel → all_product_categories fuel store code = some table := by
  obtain ⟨rank, hrank⟩ := exists_rank_of_acyclic store h
  let step := allProductCategoriesRecursive store code
  let bound := store.categories_structure.length
  let init := allProductCategoriesInitial store code
  let fuel₀ := (init.map fun x => (bound + 1) ^ rank x.category_id).sum
  obtain ⟨table, htable⟩ := recursiveCte_terminates step (fun x => rank x.category_id) bound
    (fun r => length_flatMap_le_length _ _ fun cs => by split <;> simp)
    (fun r r' hr' => hrank _ _ ((mem_allProductCategoriesRecursive store code r r').1 hr').2)
    fuel₀ init [] (le_refl _)
  exact ⟨fuel₀, table, fun fuel hle => recursiveCte_mono step fuel₀ init [] table htable fuel hle⟩


theorem productIdSubquery_of_mem (store : Store) (code : Int) (p : Product)
    (hp : p ∈ store.products) (hcode : p.code = code) :
    ∃ q ∈ store.products, q.code = code ∧ productIdSubquery store code = some q.id := by
  unfold productIdSubquery
  cases hfind : store.products.find? (fun p => p.code == code) with
  | none =>
    rw [List.find?_eq_none] at hfind
    exact absurd (by simpa using hcode) (hfind p hp)
  | some q =>
    have hq := List.find?_some hfind
    exact ⟨q, List.mem_of_find?_eq_some hfind, by simpa using hq, rfl⟩

theorem mem_all_product_categories (store : Store) (code : Int) (fuel : Nat)
    (table : List ProductCategoryRow) (h : all_product_categories fuel store code = some table)
    (a : ProductCategoryRow) :
    a ∈ table ↔
      ∃ p ∈ store.products, p.code = code ∧
        ∃ pc ∈ store.product_categories, pc.product_id = p.id ∧
          (a = { product_id := some p.id, category_id := pc.category_id } ∨
            (a.product_id = productIdSubquery store code ∧
              Relation.TransGen (ParentOf store) pc.category_id a.category_id)) := by
  unfold all_product_categories at h
  rw [recursiveCte_mem _ fuel _ _ _ h a]
  simp only [List.not_mem_nil, false_or]
  constructor
  · rintro ⟨s, hs, hreach⟩
    obtain ⟨p, hp, hcode, pc, hpc, hid, hs'⟩ := (mem_allProductCategoriesInitial _ _ _).1 hs
    refine ⟨p, hp, hcode, pc, hpc, hid, ?_⟩
    rcases (reach_allProductCategories store code s a).1 hreach with h1 | h1
    · exact Or.inl (h1.trans hs')
    · rw [hs'] at h1
      exact Or.inr h1
  · rintro ⟨p, hp, hcode, pc, hpc, hid, hcase⟩
    refine ⟨{ product_id := some p.id, category_id := pc.category_id },
      (mem_allProductCategoriesInitial _ _ _).2 ⟨p, hp, hcode, pc, hpc, hid, rfl⟩, ?_⟩
    rw [reach_allProductCategories]
    exact hcase

theorem mem_barcodeSelect (store : Store) (code : Int) (apc : List ProductCategoryRow)
    (row : ResultRow) :
    row ∈ barcodeSelect store code apc ↔
      ∃ p ∈ store.products, ∃ a ∈ apc, ∃ c ∈ store.categories,
        ∃ tcat ∈ store.topic_categories, ∃ t ∈ store.topics, ∃ tc ∈ store.topic_contents,
          (a.product_id = some p.id ∧ a.category_id = c.id ∧ tcat.category_id = c.id ∧
            tcat.topic_id = t.id ∧ tc.topic_id = t.id ∧ p.code = code) ∧
          row = { title := tc.title, section_ := t.section_, version := t.version,
                  content := tc.content, name := c.name } := by
  unfold barcodeSelect
  rw [mem_distinct]
  simp only [List.mem_flatMap]
  constructor
  · rintro ⟨p, hp, a, ha, c, hc, tcat, htcat, t, ht, tc, htc, hmem⟩
    split at hmem
    · rename_i hcond
      simp only [Bool.and_eq_true, beq_iff_eq] at hcond
      obtain ⟨⟨⟨⟨⟨h1, h2⟩, h3⟩, h4⟩, h5⟩, h6⟩ := hcond
      exact ⟨p, hp, a, ha, c, hc, tcat, htcat, t, ht, tc, htc,
        ⟨h1.symm, h2, h3.symm, h4, h5.symm, h6⟩, List.mem_singleton.1 hmem⟩
    · simp at hmem
  · rintro ⟨p, hp, a, ha, c, hc, tcat, htcat, t, ht, tc, htc, ⟨h1, h2, h3, h4, h5, h6⟩, hrow⟩
    refine ⟨p, hp, a, ha, c, hc, tcat, htcat, t, ht, tc, htc, ?_⟩
    rw [if_pos (by simp [h1, h2, h3, h4, h5, h6])]
    exact List.mem_singleton.2 hrow

/-- The rows of the barcode query over a finished `all_product_categories`: the topics linked to
a category of the store whose id is in the closure of the products with that code. -/
theorem barcodeSelect_spec (store : Store) (code : Int) (fuel : Nat)
    (table : List ProductCategoryRow) (h : all_product_categories fuel store code = some table)
    (title section_ version content : QString) :
    (∃ name, ({ title := title, section_ := section_, version := version, content := content,
                name := name } : ResultRow) ∈ barcodeSelect store code table) ↔
      ∃ c ∈ store.categories, InProductClosure store code c.id ∧
        TopicLinked store c.id title section_ version content := by
  constructor
  · rintro ⟨name, hrow⟩
    obtain ⟨p, _, a, ha, c, hc, tcat, htcat, t, ht, tc, htc, ⟨_, h2, h3, h4, h5, _⟩, hrow⟩ :=
      (mem_barcodeSelect _ _ _ _).1 hrow
    obtain ⟨q, hq, hqcode, pc, hpc, hid, hcase⟩ :=
      (mem_all_product_categories store code fuel table h a).1 ha
    simp only [ResultRow.mk.injEq] at hrow
    refine ⟨c, hc, ⟨q, hq, hqcode, pc, hpc, hid, ?_⟩,
      ⟨t, ht, tc, htc, tcat, htcat, h4, h3, h5, hrow.1, hrow.2.1, hrow.2.2.1, hrow.2.2.2.1⟩⟩
    rcases hcase with hcase | hcase
    · rw [← h2, hcase]
    · rw [← h2]; exact hcase.2.to_reflTransGen
  · rintro ⟨c, hc, ⟨q, hq, hqcode, pc, hpc, hid, hreach⟩,
      ⟨t, ht, tc, htc, l, hl, hl1, hl2, htc1, e1, e2, e3, e4⟩⟩
    refine ⟨c.name, ?_⟩
    rw [mem_barcodeSelect]
    rcases Relation.reflTransGen_iff_eq_or_transGen.1 hreach with heq | htrans
    · refine ⟨q, hq, { product_id := some q.id, category_id := pc.category_id }, ?_, c, hc,
        l, hl, t, ht, tc, htc, ⟨rfl, heq.symm, hl2, hl1, htc1, hqcode⟩, ?_⟩
      · exact (mem_all_product_categories store code fuel table h _).2
          ⟨q, hq, hqcode, pc, hpc, hid, Or.inl rfl⟩
      · rw [e1, e2, e3, e4]
    · obtain ⟨q', hq', hq'code, hsub⟩ := productIdSubquery_of_mem store code q hq hqcode
      refine ⟨q', hq', { product_id := some q'.id, category_id := c.id }, ?_, c, hc,
        l, hl, t, ht, tc, htc, ⟨rfl, rfl, hl2, hl1, htc1, hq'code⟩, ?_⟩
      · exact (mem_all_product_categories store code fuel table h _).2
          ⟨q, hq, hqcode, pc, hpc, hid, Or.inr ⟨hsub.symm, htrans⟩⟩
      · rw [e1, e2, e3, e4]

theorem toLongLong_of_fits (s : QString) (hnum : isNumber s = true)
    (hfit : digitsValue s < 2 ^ 63) : toLongLong s = (digitsValue s : Int) := by
  unfold toLongLong
  cases s with
  | nil => simp [digitsValue]
  | cons c s =>
    have hle : digitsValue (c :: s) ≤ 2 ^ 63 - 1 := by omega
    rw [if_neg (by simp [hnum]), if_pos hle]


/-! ## The table `ancestor_categories` -/

theorem var_1_of_find (store : Store) (name : QString) (seed : Category)
    (h : store.categories.find? (fun c => nocaseEq c.name name) = some seed) :
    var_1 store name = [seed.id] := by
  unfold var_1
  generalize store.categories = l at h
  induction l with
  | nil => simp at h
  | cons c cs ih =>
    by_cases hc : nocaseEq c.name name = true
    · simp only [List.find?_cons, hc, Option.some.injEq] at h
      subst h
      simp [List.filter_cons, hc]
    · have hc' : nocaseEq c.name name = false := by simpa using hc
      simp only [List.find?_cons, hc'] at h
      simpa [List.filter_cons, hc'] using ih h

theorem var_1_of_no_match (store : Store) (name : QString)
    (h : ∀ c ∈ store.categories, nocaseEq c.name name = false) :
    var_1 store name = [] := by
  unfold var_1
  have : store.categories.filter (fun c => nocaseEq c.name name) = [] := by
    rw [List.filter_eq_nil_iff]
    intro c hc
    simp [h c hc]
  simp [this]

theorem mem_ancestorCategoriesRecursive (store : Store) (r r' : AncestorRow) :
    r' ∈ ancestorCategoriesRecursive store r ↔
      r'.category_id = r.category_id ∧ ParentOf store r.ancestor_id r'.ancestor_id := by
  unfold ancestorCategoriesRecursive ParentOf
  simp only [List.mem_flatMap]
  constructor
  · rintro ⟨cs, hcs, hmem⟩
    split at hmem
    · rename_i heq
      have heq' : r.ancestor_id = cs.category_id := by simpa using heq
      have hr : r' = _ := List.mem_singleton.1 hmem
      subst hr
      exact ⟨rfl, cs, hcs, heq'.symm, rfl⟩
    · simp at hmem
  · rintro ⟨hp, cs, hcs, hc, hpar⟩
    refine ⟨cs, hcs, ?_⟩
    rw [if_pos (by simpa using hc.symm)]
    cases r'
    simp_all

theorem reach_ancestorCategories (store : Store) (s r : AncestorRow) :
    Relation.ReflTransGen (fun a b => b ∈ ancestorCategoriesRecursive store a) s r ↔
      r.category_id = s.category_id ∧
        Relation.ReflTransGen (ParentOf store) s.ancestor_id r.ancestor_id := by
  constructor
  · intro h
    induction h with
    | refl => exact ⟨rfl, Relation.ReflTransGen.refl⟩
    | tail _ hbc ih =>
      rw [mem_ancestorCategoriesRecursive] at hbc
      exact ⟨hbc.1.trans ih.1, Relation.ReflTransGen.tail ih.2 hbc.2⟩
  · rintro ⟨hcat, h⟩
    have key : ∀ a, Relation.ReflTransGen (ParentOf store) s.ancestor_id a →
        Relation.ReflTransGen (fun a b => b ∈ ancestorCategoriesRecursive store a) s
          { category_id := s.category_id, ancestor_id := a } := by
      intro a ha
      induction ha with
      | refl => exact Relation.ReflTransGen.refl
      | tail _ hbc ih =>
        exact Relation.ReflTransGen.tail ih
          ((mem_ancestorCategoriesRecursive store _ _).2 ⟨rfl, hbc⟩)
    have := key r.ancestor_id h
    rw [← hcat] at this
    exact this

theorem mem_ancestorCategoriesInitial (store : Store) (name : QString) (v : Nat)
    (hv : var_1 store name = [v]) (r : AncestorRow) :
    r ∈ ancestorCategoriesInitial store name ↔
      r = { category_id := v, ancestor_id := v } ∨
        (r.category_id = v ∧ ParentOf store v r.ancestor_id) := by
  unfold ancestorCategoriesInitial ParentOf
  rw [mem_distinct, hv]
  simp only [List.mem_append, List.map_cons, List.map_nil, List.mem_singleton, List.mem_flatMap]
  constructor
  · rintro (h | ⟨cs, hcs, w, hw, hmem⟩)
    · exact Or.inl h
    · subst hw
      split at hmem
      · rename_i heq
        have heq' : cs.category_id = w := by simpa using heq
        have hr : r = _ := List.mem_singleton.1 hmem
        subst hr
        exact Or.inr ⟨heq', cs, hcs, heq', rfl⟩
      · simp at hmem
  · rintro (h | ⟨hcat, cs, hcs, hc, hpar⟩)
    · exact Or.inl h
    · refine Or.inr ⟨cs, hcs, v, rfl, ?_⟩
      rw [if_pos (by simpa using hc)]
      cases r
      simp_all

theorem mem_ancestor_categories (store : Store) (name : QString) (v : Nat)
    (hv : var_1 store name = [v]) (fuel : Nat) (table : List AncestorRow)
    (h : ancestor_categories fuel store name = some table) (r : AncestorRow) :
    r ∈ table ↔
      r.category_id = v ∧ Relation.ReflTransGen (ParentOf store) v r.ancestor_id := by
  unfold ancestor_categories at h
  rw [recursiveCte_mem _ fuel _ _ _ h r]
  simp only [List.not_mem_nil, false_or]
  constructor
  · rintro ⟨s, hs, hreach⟩
    rw [reach_ancestorCategories] at hreach
    rcases (mem_ancestorCategoriesInitial store name v hv s).1 hs with hs | hs
    · subst hs
      exact hreach
    · exact ⟨hreach.1.trans hs.1, Relation.ReflTransGen.head hs.2 hreach.2⟩
  · rintro ⟨hcat, hreach⟩
    refine ⟨{ category_id := v, ancestor_id := v },
      (mem_ancestorCategoriesInitial store name v hv _).2 (Or.inl rfl), ?_⟩
    rw [reach_ancestorCategories]
    exact ⟨hcat, hreach⟩

theorem ancestor_categories_terminates (store : Store) (name : QString) (h : Acyclic store) :
    ∃ fuel₀ table, ∀ fuel, fuel₀ ≤ fuel → ancestor_categories fuel store name = some table := by
  obtain ⟨rank, hrank⟩ := exists_rank_of_acyclic store h
  let step := ancestorCategoriesRecursive store
  let bound := store.categories_structure.length
  let init := ancestorCategoriesInitial store name
  let fuel₀ := (init.map fun x => (bound + 1) ^ rank x.ancestor_id).sum
  obtain ⟨table, htable⟩ := recursiveCte_terminates step (fun x => rank x.ancestor_id) bound
    (fun r => length_flatMap_le_length _ _ fun cs => by split <;> simp)
    (fun r r' hr' => hrank _ _ ((mem_ancestorCategoriesRecursive store r r').1 hr').2)
    fuel₀ init [] (le_refl _)
  exact ⟨fuel₀, table, fun fuel hle => recursiveCte_mono step fuel₀ init [] table htable fuel hle⟩

theorem mem_categorySelect (store : Store) (name : QString) (v : Nat)
    (hv : var_1 store name = [v]) (ac : List AncestorRow) (row : ResultRow) :
    row ∈ categorySelect store name ac ↔
      ∃ c ∈ store.categories, ∃ a ∈ ac,
        ∃ tcat ∈ store.topic_categories, ∃ t ∈ store.topics, ∃ tc ∈ store.topic_contents,
          (a.category_id = c.id ∧ a.ancestor_id = tcat.category_id ∧ tcat.topic_id = t.id ∧
            tc.topic_id = t.id ∧ c.id = v) ∧
          row = { title := tc.title, section_ := t.section_, version := t.version,
                  content := tc.content, name := c.name } := by
  unfold categorySelect
  rw [mem_distinct, hv]
  simp only [List.mem_flatMap, List.mem_singleton]
  constructor
  · rintro ⟨c, hc, w, hw, a, ha, tcat, htcat, t, ht, tc, htc, hmem⟩
    subst hw
    split at hmem
    · rename_i hcond
      simp only [Bool.and_eq_true, beq_iff_eq] at hcond
      obtain ⟨⟨⟨⟨h1, h2⟩, h3⟩, h4⟩, h5⟩ := hcond
      exact ⟨c, hc, a, ha, tcat, htcat, t, ht, tc, htc,
        ⟨h1, h2, h3.symm, h4, h5⟩, List.mem_singleton.1 hmem⟩
    · simp at hmem
  · rintro ⟨c, hc, a, ha, tcat, htcat, t, ht, tc, htc, ⟨h1, h2, h3, h4, h5⟩, hrow⟩
    refine ⟨c, hc, v, rfl, a, ha, tcat, htcat, t, ht, tc, htc, ?_⟩
    rw [if_pos (by simp [h1, h2, h3, h4, h5])]
    exact List.mem_singleton.2 hrow

/-- The rows of the category-name query over a finished `ancestor_categories`: the topics
linked to the seed category or to one of its transitive parents. -/
theorem categorySelect_spec (store : Store) (name : QString) (seed : Category)
    (hseed : store.categories.find? (fun c => nocaseEq c.name name) = some seed)
    (fuel : Nat) (table : List AncestorRow)
    (h : ancestor_categories fuel store name = some table)
    (title section_ version content : QString) :
    (∃ nm, ({ title := title, section_ := section_, version := version, content := content,
              name := nm } : ResultRow) ∈ categorySelect store name table) ↔
      ∃ a, Relation.ReflTransGen (ParentOf store) seed.id a ∧
        TopicLinked store a title section_ version content := by
  have hv := var_1_of_find store name seed hseed
  constructor
  · rintro ⟨nm, hrow⟩
    obtain ⟨c, _, a, ha, tcat, htcat, t, ht, tc, htc, ⟨_, h2, h3, h4, _⟩, hrow⟩ :=
      (mem_categorySelect store name seed.id hv table _).1 hrow
    have ha' := (mem_ancestor_categories store name seed.id hv fuel table h a).1 ha
    simp only [ResultRow.mk.injEq] at hrow
    exact ⟨a.ancestor_id, ha'.2,
      ⟨t, ht, tc, htc, tcat, htcat, h3, h2.symm, h4, hrow.1, hrow.2.1, hrow.2.2.1, hrow.2.2.2.1⟩⟩
  · rintro ⟨a, hreach, ⟨t, ht, tc, htc, l, hl, hl1, hl2, htc1, e1, e2, e3, e4⟩⟩
    refine ⟨seed.name, ?_⟩
    rw [mem_categorySelect store name seed.id hv]
    refine ⟨seed, List.mem_of_find?_eq_some hseed,
      { category_id := seed.id, ancestor_id := a }, ?_,
      l, hl, t, ht, tc, htc, ⟨rfl, hl2.symm, hl1, htc1, rfl⟩, ?_⟩
    · exact (mem_ancestor_categories store name seed.id hv fuel table h _).2 ⟨rfl, hreach⟩
    · rw [e1, e2, e3, e4]

theorem acyclic_of_rank (store : Store) (rank : Nat → Nat)
    (h : ∀ cs ∈ store.categories_structure, rank cs.parent_id < rank cs.category_id) :
    Acyclic store := by
  have hstep : ∀ c p, ParentOf store c p → rank p < rank c := by
    rintro c p ⟨cs, hcs, hc, hp⟩
    rw [← hc, ← hp]
    exact h cs hcs
  have htrans : ∀ c d, Relation.TransGen (ParentOf store) c d → rank d < rank c := by
    intro c d hcd
    induction hcd with
    | single hs => exact hstep _ _ hs
    | tail _ hs ih => exact lt_trans (hstep _ _ hs) ih
  intro c hc
  exact lt_irrefl _ (htrans c c hc)


/-! ## The queries over a finished and over an unfinished recursive table -/

theorem barcodeQuery_of_finished (fuel : Nat) (store : Store) (code : Int)
    (table : List ProductCategoryRow)
    (h : all_product_categories fuel store code = some table) :
    barcodeQuery fuel store code = some (barcodeSelect store code table) := by
  simp only [barcodeQuery, h]

theorem barcodeQuery_of_unfinished (fuel : Nat) (store : Store) (code : Int)
    (h : all_product_categories fuel store code = none) :
    barcodeQuery fuel store code =
      if store.plans.barcodeStopsEarly && (barcodeOtherTables store code).isEmpty then some []
      else none := by
  simp only [barcodeQuery, h]

theorem categoryQuery_of_finished (fuel : Nat) (store : Store) (name : QString)
    (table : List AncestorRow) (h : ancestor_categories fuel store name = some table) :
    categoryQuery fuel store name = some (categorySelect store name table) := by
  simp only [categoryQuery, h]

theorem categoryQuery_of_unfinished (fuel : Nat) (store : Store) (name : QString)
    (h : ancestor_categories fuel store name = none) :
    categoryQuery fuel store name =
      if store.plans.categoryStopsEarly && (categoryOtherTables store name).isEmpty then some []
      else none := by
  simp only [categoryQuery, h]

/-- When the other tables of the barcode query give no row, the main select over any table
`all_product_categories` gives no row either: ending the query early changes no result. -/
theorem barcodeSelect_of_no_other_rows (store : Store) (code : Int)
    (apc : List ProductCategoryRow) (h : barcodeOtherTables store code = []) :
    barcodeSelect store code apc = [] := by
  rw [List.eq_nil_iff_forall_not_mem]
  intro row hrow
  obtain ⟨p, hp, a, _, c, hc, tcat, htcat, t, ht, tc, htc, ⟨_, _, h3, h4, h5, h6⟩, _⟩ :=
    (mem_barcodeSelect store code apc row).1 hrow
  have hmem : (p, c, tcat, t, tc) ∈ barcodeOtherTables store code := by
    unfold barcodeOtherTables
    simp only [List.mem_flatMap]
    refine ⟨p, hp, c, hc, tcat, htcat, t, ht, tc, htc, ?_⟩
    rw [if_pos (by simp [h3, h4, h5, h6])]
    exact List.mem_singleton_self _
  rw [h] at hmem
  exact List.not_mem_nil _ hmem

/-- When the other tables of the category-name query give no row, the main select over any
table `ancestor_categories` gives no row either. -/
theorem categorySelect_of_no_other_rows (store : Store) (name : QString)
    (ac : List AncestorRow) (h : categoryOtherTables store name = []) :
    categorySelect store name ac = [] := by
  rw [List.eq_nil_iff_forall_not_mem]
  intro row hrow
  unfold categorySelect at hrow
  rw [mem_distinct] at hrow
  simp only [List.mem_flatMap] at hrow
  obtain ⟨c, hc, v, hv, a, _, tcat, htcat, t, ht, tc, htc, hmem⟩ := hrow
  split at hmem
  · rename_i hcond
    simp only [Bool.and_eq_true, beq_iff_eq] at hcond
    obtain ⟨⟨⟨⟨_, _⟩, h3⟩, h4⟩, h5⟩ := hcond
    have hmem' : (c, v, tcat, t, tc) ∈ categoryOtherTables store name := by
      unfold categoryOtherTables
      simp only [List.mem_flatMap]
      refine ⟨c, hc, v, hv, tcat, htcat, t, ht, tc, htc, ?_⟩
      rw [if_pos (by simp [h3, h4, h5])]
      exact List.mem_singleton_self _
    rw [h] at hmem'
    exact List.not_mem_nil _ hmem'
  · simp at hmem

/-- A result of the barcode query does not change with more fuel. -/
theorem barcodeQuery_mono (store : Store) (code : Int) (fuel : Nat) (rows : List ResultRow)
    (h : barcodeQuery fuel store code = some rows) (fuel' : Nat) (hle : fuel ≤ fuel') :
    barcodeQuery fuel' store code = some rows := by
  cases htable : all_product_categories fuel store code with
  | some table =>
    rw [barcodeQuery_of_finished fuel store code table htable] at h
    rw [← h]
    exact barcodeQuery_of_finished fuel' store code table
      (recursiveCte_mono _ fuel _ _ table htable fuel' hle)
  | none =>
    rw [barcodeQuery_of_unfinished fuel store code htable] at h
    split at h
    · rename_i hcond
      simp only [Bool.and_eq_true, List.isEmpty_iff] at hcond
      have hrows : rows = [] := by simpa using h.symm
      cases htable' : all_product_categories fuel' store code with
      | some table =>
        rw [barcodeQuery_of_finished fuel' store code table htable', hrows,
          barcodeSelect_of_no_other_rows store code table hcond.2]
      | none =>
        rw [barcodeQuery_of_unfinished fuel' store code htable', hrows]
        simp [hcond.1, hcond.2]
    · exact Option.noConfusion h

/-- A result of the category-name query does not change with more fuel. -/
theorem categoryQuery_mono (store : Store) (name : QString) (fuel : Nat)
    (rows : List ResultRow) (h : categoryQuery fuel store name = some rows) (fuel' : Nat)
    (hle : fuel ≤ fuel') : categoryQuery fuel' store name = some rows := by
  cases htable : ancestor_categories fuel store name with
  | some table =>
    rw [categoryQuery_of_finished fuel store name table htable] at h
    rw [← h]
    exact categoryQuery_of_finished fuel' store name table
      (recursiveCte_mono _ fuel _ _ table htable fuel' hle)
  | none =>
    rw [categoryQuery_of_unfinished fuel store name htable] at h
    split at h
    · rename_i hcond
      simp only [Bool.and_eq_true, List.isEmpty_iff] at hcond
      have hrows : rows = [] := by simpa using h.symm
      cases htable' : ancestor_categories fuel' store name with
      | some table =>
        rw [categoryQuery_of_finished fuel' store name table htable', hrows,
          categorySelect_of_no_other_rows store name table hcond.2]
      | none =>
        rw [categoryQuery_of_unfinished fuel' store name htable', hrows]
        simp [hcond.1, hcond.2]
    · exact Option.noConfusion h

/-! ## Lookup by product code and by category name -/

/-- Lookup by a product code that fits a signed 64-bit integer: for an acyclic parent-link
relation and a digit-only search term that is the code of a product of the store,
`contentAsDocbook` returns, for all sufficient fuel, the document rendered from result rows
whose topics are exactly the topics linked to a category that is directly assigned to a product
with that code or is a transitive parent of a directly assigned category. -/
theorem contentAsDocbook_by_product_code (store : Store) (searchTerm : QString) (p : Product)
    (hacyclic : Acyclic store) (hnum : isNumber searchTerm = true)
    (_hp : p ∈ store.products) (hcode : p.code = (digitsValue searchTerm : Int))
    (h64 : p.code < 2 ^ 63) :
    ∃ fuel₀ rows,
      (∀ fuel, fuel₀ ≤ fuel →
        contentAsDocbook fuel (some store) searchTerm = some (renderDocbook rows)) ∧
      ∀ title section_ version content,
        (∃ name, ({ title := title, section_ := section_, version := version,
                    content := content, name := name } : ResultRow) ∈ rows) ↔
          ∃ c ∈ store.categories, InProductClosure store p.code c.id ∧
            TopicLinked store c.id title section_ version content := by
  have hkey : toLongLong searchTerm = p.code := by
    rw [toLongLong_of_fits searchTerm hnum (by rw [hcode] at h64; exact_mod_cast h64), hcode]
  obtain ⟨fuel₀, table, htable⟩ := all_product_categories_terminates store p.code hacyclic
  refine ⟨fuel₀, barcodeSelect store p.code table, ?_, ?_⟩
  · intro fuel hle
    simp only [contentAsDocbook, hnum, if_true, hkey,
      barcodeQuery_of_finished fuel store p.code table (htable fuel hle), Option.map_some']
  · intro title section_ version content
    exact barcodeSelect_spec store p.code fuel₀ table (htable fuel₀ (le_refl _))
      title section_ version content

theorem contentAsDocbook_by_product_code_witness :
    ∃ fuel₀ rows,
      (∀ fuel, fuel₀ ≤ fuel →
        contentAsDocbook fuel (some dairyStore) "40001765".toList = some (renderDocbook rows)) ∧
      ∀ title section_ version content,
        (∃ name, ({ title := title, section_ := section_, version := version,
                    content := content, name := name } : ResultRow) ∈ rows) ↔
          ∃ c ∈ dairyStore.categories, InProductClosure dairyStore 40001765 c.id ∧
            TopicLinked dairyStore c.id title section_ version content :=
  contentAsDocbook_by_product_code dairyStore "40001765".toList { id := 1, code := 40001765 }
    (acyclic_of_rank dairyStore (fun c => 100 - c) (by decide)) (by decide) (by decide)
    (by decide) (by decide)

/-- C2: for an acyclic parent-link relation and a non-numeric search term whose first matching
category is `seed`, the table `ancestor_categories` is finished for all sufficient fuel, its
ancestor ids are exactly `seed.id` and its transitive parents (so `seed.id` is among them), and
the topics of the returned document are exactly the topics linked to one of these ids. -/
theorem contentAsDocbook_by_category_name (store : Store) (searchTerm : QString)
    (seed : Category) (hacyclic : Acyclic store) (hname : isNumber searchTerm = false)
    (hseed : store.categories.find? (fun c => nocaseEq c.name searchTerm) = some seed) :
    ∃ fuel₀ table rows,
      (∀ fuel, fuel₀ ≤ fuel →
        ancestor_categories fuel store searchTerm = some table ∧
        contentAsDocbook fuel (some store) searchTerm = some (renderDocbook rows)) ∧
      (∀ a, (∃ r ∈ table, r.ancestor_id = a) ↔
        Relation.ReflTransGen (ParentOf store) seed.id a) ∧
      (∃ r ∈ table, r.ancestor_id = seed.id) ∧
      ∀ title section_ version content,
        (∃ name, ({ title := title, section_ := section_, version := version,
                    content := content, name := name } : ResultRow) ∈ rows) ↔
          ∃ a, (∃ r ∈ table, r.ancestor_id = a) ∧
            TopicLinked store a title section_ version content := by
  obtain ⟨fuel₀, table, htable⟩ := ancestor_categories_terminates store searchTerm hacyclic
  have hv := var_1_of_find store searchTerm seed hseed
  have hmem := mem_ancestor_categories store searchTerm seed.id hv fuel₀ table
    (htable fuel₀ (le_refl _))
  have hids : ∀ a, (∃ r ∈ table, r.ancestor_id = a) ↔
      Relation.ReflTransGen (ParentOf store) seed.id a := by
    intro a
    constructor
    · rintro ⟨r, hr, hra⟩
      rw [← hra]
      exact ((hmem r).1 hr).2
    · intro ha
      exact ⟨{ category_id := seed.id, ancestor_id := a }, (hmem _).2 ⟨rfl, ha⟩, rfl⟩
  refine ⟨fuel₀, table, categorySelect store searchTerm table, ?_, hids,
    (hids seed.id).2 Relation.ReflTransGen.refl, ?_⟩
  · intro fuel hle
    refine ⟨htable fuel hle, ?_⟩
    simp only [contentAsDocbook, hname, Bool.false_eq_true, if_false,
      categoryQuery_of_finished fuel store searchTerm table (htable fuel hle), Option.map_some']
  · intro title section_ version content
    rw [categorySelect_spec store searchTerm seed hseed fuel₀ table (htable fuel₀ (le_refl _))]
    constructor
    · rintro ⟨a, ha, ht⟩
      exact ⟨a, (hids a).2 ha, ht⟩
    · rintro ⟨a, ha, ht⟩
      exact ⟨a, (hids a).1 ha, ht⟩

theorem contentAsDocbook_by_category_name_witness :
    ∃ fuel₀ table rows,
      (∀ fuel, fuel₀ ≤ fuel →
        ancestor_categories fuel dairyStore "dairy".toList = some table ∧
        contentAsDocbook fuel (some dairyStore) "dairy".toList = some (renderDocbook rows)) ∧
      (∀ a, (∃ r ∈ table, r.ancestor_id = a) ↔
        Relation.ReflTransGen (ParentOf dairyStore) 10 a) ∧
      (∃ r ∈ table, r.ancestor_id = 10) ∧
      ∀ title section_ version content,
        (∃ name, ({ title := title, section_ := section_, version := version,
                    content := content, name := name } : ResultRow) ∈ rows) ↔
          ∃ a, (∃ r ∈ table, r.ancestor_id = a) ∧
            TopicLinked dairyStore a title section_ version content :=
  contentAsDocbook_by_category_name dairyStore "dairy".toList
    { id := 10, name := "Dairy".toList, lang := "en".toList }
    (acyclic_of_rank dairyStore (fun c => 100 - c) (by decide)) (by decide) (by decide)


/-! ## A cycle in the parent links -/

theorem contentAsDocbook_of_number (fuel : Nat) (store : Store) (searchTerm : QString)
    (h : isNumber searchTerm = true) :
    contentAsDocbook fuel (some store) searchTerm =
      (barcodeQuery fuel store (toLongLong searchTerm)).map renderDocbook := by
  simp only [contentAsDocbook, h, if_true]

theorem contentAsDocbook_of_name (fuel : Nat) (store : Store) (searchTerm : QString)
    (h : isNumber searchTerm = false) :
    contentAsDocbook fuel (some store) searchTerm =
      (categoryQuery fuel store searchTerm).map renderDocbook := by
  simp only [contentAsDocbook, h, Bool.false_eq_true, if_false]

theorem all_product_categories_cycle (store : Store) (A B : Nat) (code : Int)
    (hAB : ParentOf store A B) (hBA : ParentOf store B A)
    (hseed : ∃ p ∈ store.products, p.code = code ∧
      ∃ pc ∈ store.product_categories, pc.product_id = p.id ∧ pc.category_id = A)
    (fuel : Nat) : all_product_categories fuel store code = none := by
  unfold all_product_categories
  apply recursiveCte_diverges _ (fun r => r.category_id = A ∨ r.category_id = B)
  · intro r hr
    rcases hr with hr | hr
    · exact ⟨{ product_id := productIdSubquery store code, category_id := B },
        (mem_allProductCategoriesRecursive _ _ _ _).2 ⟨rfl, by rw [hr]; exact hAB⟩, Or.inr rfl⟩
    · exact ⟨{ product_id := productIdSubquery store code, category_id := A },
        (mem_allProductCategoriesRecursive _ _ _ _).2 ⟨rfl, by rw [hr]; exact hBA⟩, Or.inl rfl⟩
  · obtain ⟨p, hp, hcode, pc, hpc, hid, hcat⟩ := hseed
    exact ⟨{ product_id := some p.id, category_id := pc.category_id },
      (mem_allProductCategoriesInitial _ _ _).2 ⟨p, hp, hcode, pc, hpc, hid, rfl⟩, Or.inl hcat⟩

theorem ancestor_categories_cycle (store : Store) (A B : Nat) (name : QString)
    (hAB : ParentOf store A B) (hBA : ParentOf store B A)
    (hseed : ∃ seed, store.categories.find? (fun c => nocaseEq c.name name) = some seed ∧
      seed.id = A)
    (fuel : Nat) : ancestor_categories fuel store name = none := by
  unfold ancestor_categories
  apply recursiveCte_diverges _ (fun r => r.ancestor_id = A ∨ r.ancestor_id = B)
  · intro r hr
    rcases hr with hr | hr
    · exact ⟨{ category_id := r.category_id, ancestor_id := B },
        (mem_ancestorCategoriesRecursive _ _ _).2 ⟨rfl, by rw [hr]; exact hAB⟩, Or.inr rfl⟩
    · exact ⟨{ category_id := r.category_id, ancestor_id := A },
        (mem_ancestorCategoriesRecursive _ _ _).2 ⟨rfl, by rw [hr]; exact hBA⟩, Or.inl rfl⟩
  · obtain ⟨seed, hfind, hid⟩ := hseed
    have hv := var_1_of_find store name seed hfind
    exact ⟨{ category_id := seed.id, ancestor_id := seed.id },
      (mem_ancestorCategoriesInitial store name seed.id hv _).2 (Or.inl rfl), Or.inl hid⟩

theorem map_renderDocbook_stopsEarly (stops : Bool) :
    (if stops then some ([] : List ResultRow) else none).map renderDocbook =
      if stops then some [] else none := by
  cases stops <;> rfl

/-- With a cycle A → B → A reached from the seed, `contentAsDocbook` returns the empty string
when the plan ends the query on the empty other tables, and does not return otherwise. -/
theorem contentAsDocbook_of_cycle (store : Store) (A B : Nat) (searchTerm : QString)
    (hAB : ParentOf store A B) (hBA : ParentOf store B A)
    (hseed :
      (isNumber searchTerm = true ∧
        ∃ p ∈ store.products, p.code = toLongLong searchTerm ∧
          ∃ pc ∈ store.product_categories, pc.product_id = p.id ∧ pc.category_id = A) ∨
      (isNumber searchTerm = false ∧
        ∃ seed, store.categories.find? (fun c => nocaseEq c.name searchTerm) = some seed ∧
          seed.id = A))
    (fuel : Nat) :
    contentAsDocbook fuel (some store) searchTerm =
      if (if isNumber searchTerm then
            store.plans.barcodeStopsEarly &&
              (barcodeOtherTables store (toLongLong searchTerm)).isEmpty
          else
            store.plans.categoryStopsEarly &&
              (categoryOtherTables store searchTerm).isEmpty) = true
      then some [] else none := by
  rcases hseed with ⟨hnum, hs⟩ | ⟨hnum, hs⟩
  · rw [contentAsDocbook_of_number fuel store searchTerm hnum,
      barcodeQuery_of_unfinished fuel store _
        (all_product_categories_cycle store A B _ hAB hBA hs fuel),
      map_renderDocbook_stopsEarly]
    simp only [hnum, if_true]
  · rw [contentAsDocbook_of_name fuel store searchTerm hnum,
      categoryQuery_of_unfinished fuel store _
        (ancestor_categories_cycle store A B _ hAB hBA hs fuel),
      map_renderDocbook_stopsEarly]
    simp only [hnum, Bool.false_eq_true, if_false]

/-- The same cycle without any topic link: the other tables of both main selects give no row,
and whether `contentAsDocbook` returns the empty string or does not return is decided by the
query plan. -/
theorem cycle_without_links_depends_on_plan :
    (∀ fuel, contentAsDocbook fuel
        (some (cycleStoreWithoutLinks { barcodeStopsEarly := true, categoryStopsEarly := true }))
        "123".toList = some []) ∧
      (∀ fuel, contentAsDocbook fuel
        (some (cycleStoreWithoutLinks { barcodeStopsEarly := true, categoryStopsEarly := true }))
        "Apples".toList = some []) ∧
      (∀ fuel, contentAsDocbook fuel
        (some (cycleStoreWithoutLinks { barcodeStopsEarly := false, categoryStopsEarly := false }))
        "123".toList = none) ∧
      (∀ fuel, contentAsDocbook fuel
        (some (cycleStoreWithoutLinks { barcodeStopsEarly := false, categoryStopsEarly := false }))
        "Apples".toList = none) := by
  have h12 : ∀ plans, ParentOf (cycleStoreWithoutLinks plans) 1 2 := fun _ =>
    ⟨⟨1, 2⟩, List.mem_cons_self _ _, rfl, rfl⟩
  have h21 : ∀ plans, ParentOf (cycleStoreWithoutLinks plans) 2 1 := fun _ =>
    ⟨⟨2, 1⟩, List.mem_cons_of_mem _ (List.mem_cons_self _ _), rfl, rfl⟩
  have hb : ∀ plans fuel, contentAsDocbook fuel (some (cycleStoreWithoutLinks plans))
      "123".toList = _ := fun plans fuel =>
    contentAsDocbook_of_cycle (cycleStoreWithoutLinks plans) 1 2 "123".toList
      (h12 plans) (h21 plans)
      (Or.inl ⟨by decide, ⟨1, 123⟩, List.mem_cons_self _ _, by decide, ⟨1, 1⟩,
        List.mem_cons_self _ _, rfl, rfl⟩) fuel
  have hc : ∀ plans fuel, contentAsDocbook fuel (some (cycleStoreWithoutLinks plans))
      "Apples".toList = _ := fun plans fuel =>
    contentAsDocbook_of_cycle (cycleStoreWithoutLinks plans) 1 2 "Apples".toList
      (h12 plans) (h21 plans)
      (Or.inr ⟨by decide, { id := 1, name := "Apples".toList, lang := "en".toList },
        (by show cycleStore.categories.find? (fun c => nocaseEq c.name "Apples".toList) = _
            decide), rfl⟩) fuel
  refine ⟨fun fuel => ?_, fun fuel => ?_, fun fuel => ?_, fun fuel => ?_⟩
  · rw [hb]; decide!
  · rw [hc]; decide!
  · rw [hb]; decide!
  · rw [hc]; decide!


/-! ## Rendering -/

theorem appendTopic_eq (docbook : QString) (row : ResultRow) :
    appendTopic docbook row = docbook ++ topicElement row := by
  simp [appendTopic, topicElement, List.append_assoc]

theorem foldl_appendTopic (rows : List ResultRow) (docbook : QString) :
    rows.foldl appendTopic docbook = docbook ++ (rows.map topicElement).flatten := by
  induction rows generalizing docbook with
  | nil => simp
  | cons row rows ih =>
    simp only [List.foldl_cons, List.map_cons, List.flatten_cons]
    rw [ih, appendTopic_eq, List.append_assoc]

theorem topicElement_ne_nil (row : ResultRow) : topicElement row ≠ [] := by
  simp [topicElement]

/-- C7: the document rendered by `contentAsDocbook` from a sequence of result rows is the
document `bookOf` of the specification: the empty string for no rows, otherwise the `<book>`
header, the `<topic>` element of every row in the rows' order, and `</book>`; it is empty if
and only if there are no rows. -/
theorem renderDocbook_eq_bookOf (rows : List ResultRow) :
    renderDocbook rows = bookOf rows ∧ (renderDocbook rows = [] ↔ rows = []) := by
  have hfold : rows.foldl appendTopic [] = (rows.map topicElement).flatten := by
    rw [foldl_appendTopic, List.nil_append]
  have heq : renderDocbook rows = bookOf rows := by
    cases rows with
    | nil => rfl
    | cons row rows =>
      have hne : ((row :: rows).map topicElement).flatten ≠ [] := by
        have := topicElement_ne_nil row
        simp [this]
      simp only [renderDocbook, bookOf, hfold, bookHeader, List.isEmpty_cons,
        Bool.false_eq_true, if_false]
      rw [if_neg (by simpa using hne)]
  refine ⟨heq, ?_⟩
  rw [heq]
  cases rows with
  | nil => simp [bookOf]
  | cons row rows => simp [bookOf, bookHeader]

/-! ## Topics reached through two categories -/

/-- C4, the code at the failing input: in `sharedTopicStore` topic T1 is linked to Dairy and to
its parent Food, both in the closure of product 40001765.  The barcode query returns T1 twice,
once per category name, and the document holds two identical `<topic>` elements; the
category-name query for `Dairy` returns it once. -/
theorem barcode_query_repeats_shared_topic :
    barcodeQuery 5 sharedTopicStore 40001765 =
        some [t1Row "Dairy".toList, t1Row "Food".toList] ∧
      contentAsDocbook 5 (some sharedTopicStore) "40001765".toList =
        some (bookHeader ++ topicElement (t1Row "Dairy".toList)
          ++ topicElement (t1Row "Food".toList) ++ "</book>".toList) ∧
      topicElement (t1Row "Food".toList) = topicElement (t1Row "Dairy".toList) ∧
      contentAsDocbook 5 (some sharedTopicStore) "Dairy".toList =
        some (bookHeader ++ topicElement (t1Row "Dairy".toList) ++ "</book>".toList) := by
  refine ⟨by decide!, by decide!, by decide!, by decide!⟩

/-! ## Search terms that resolve to nothing -/

theorem barcodeQuery_of_no_product (fuel : Nat) (store : Store) (code : Int)
    (h : ∀ p ∈ store.products, p.code ≠ code) : barcodeQuery fuel store code = some [] := by
  have hinit : allProductCategoriesInitial store code = [] := by
    rw [List.eq_nil_iff_forall_not_mem]
    intro r hr
    obtain ⟨p, hp, hcode, _⟩ := (mem_allProductCategoriesInitial store code r).1 hr
    exact h p hp hcode
  have htable : all_product_categories fuel store code = some [] := by
    unfold all_product_categories
    rw [hinit]
    cases fuel <;> rfl
  rw [barcodeQuery_of_finished fuel store code [] htable]
  congr 1
  rw [List.eq_nil_iff_forall_not_mem]
  intro row hrow
  obtain ⟨_, _, a, ha, _⟩ := (mem_barcodeSelect store code [] row).1 hrow
  simp at ha

theorem flatMap_const_nil {α β : Type} (l : List α) :
    l.flatMap (fun _ => ([] : List β)) = [] := by
  induction l with
  | nil => rfl
  | cons x xs ih => simp [ih]

theorem categoryQuery_of_no_category (fuel : Nat) (store : Store) (name : QString)
    (h : ∀ c ∈ store.categories, nocaseEq c.name name = false) :
    categoryQuery fuel store name = some [] := by
  have hv := var_1_of_no_match store name h
  have hinit : ancestorCategoriesInitial store name = [] := by
    simp [ancestorCategoriesInitial, hv, distinct, flatMap_const_nil]
  have htable : ancestor_categories fuel store name = some [] := by
    unfold ancestor_categories
    rw [hinit]
    cases fuel <;> rfl
  rw [categoryQuery_of_finished fuel store name [] htable]
  simp [categorySelect, hv, distinct, flatMap_const_nil]

/-- A search term that the queries resolve to nothing gives the empty string, for any fuel and
both formats: a digit-only term whose bound value `toLongLong` is the code of no product, or
another term that equals no category name. -/
theorem content_of_unresolved_term (query : XmlQuery) (fuel : Nat) (store : Store)
    (searchTerm : QString) (format : ContentFormat)
    (hproduct : isNumber searchTerm = true →
      ∀ p ∈ store.products, p.code ≠ toLongLong searchTerm)
    (hcategory : isNumber searchTerm = false →
      ∀ c ∈ store.categories, nocaseEq c.name searchTerm = false) :
    contentAsDocbook fuel (some store) searchTerm = some [] ∧
      content query fuel (some store) searchTerm format = some [] := by
  have hdoc : contentAsDocbook fuel (some store) searchTerm = some [] := by
    cases hnum : isNumber searchTerm with
    | true =>
      rw [contentAsDocbook_of_number _ _ _ hnum,
        barcodeQuery_of_no_product fuel store _ (hproduct hnum)]
      rfl
    | false =>
      rw [contentAsDocbook_of_name _ _ _ hnum,
        categoryQuery_of_no_category fuel store _ (hcategory hnum)]
      rfl
  refine ⟨hdoc, ?_⟩
  rw [content, hdoc]
  cases format <;> rfl

/-- C6, the code at the failing input: the digit-only term `99999999999999999999` is the code of
no product of `zeroCodeStore`, but `contentAsDocbook` and `content` return the topic of the
product with code 0 instead of the empty string. -/
theorem overflowing_term_is_not_absent :
    isNumber "99999999999999999999".toList = true ∧
      (∀ p ∈ zeroCodeStore.products,
        p.code ≠ (digitsValue "99999999999999999999".toList : Int)) ∧
      contentAsDocbook 5 (some zeroCodeStore) "99999999999999999999".toList =
        some (bookHeader ++ topicElement (t1Row "Misc".toList) ++ "</book>".toList) ∧
      content identityQuery 5 (some zeroCodeStore) "99999999999999999999".toList
          ContentFormat.DOCBOOK ≠ some [] ∧
      content identityQuery 5 (some zeroCodeStore) "99999999999999999999".toList
          ContentFormat.HTML ≠ some [] := by
  refine ⟨by decide!, by decide!, by decide!, by decide!, by decide!⟩

/-- C9, the code at the failing input: the digit strings `18446744073709551616` and `0` are both
bound to `:code` as 0, so in `zeroCodeStore` the barcode query for the first one selects the
product whose code is 0 and the document is not absent. -/
theorem long_code_bound_as_zero :
    toLongLong "18446744073709551616".toList = 0 ∧
      toLongLong "0".toList = 0 ∧
      (∀ p ∈ zeroCodeStore.products,
        p.code ≠ (digitsValue "18446744073709551616".toList : Int)) ∧
      barcodeQuery 5 zeroCodeStore (toLongLong "18446744073709551616".toList) =
        some [t1Row "Misc".toList] ∧
      contentAsDocbook 5 (some zeroCodeStore) "18446744073709551616".toList =
        contentAsDocbook 5 (some zeroCodeStore) "0".toList ∧
      contentAsDocbook 5 (some zeroCodeStore) "18446744073709551616".toList ≠ some [] := by
  refine ⟨by decide!, by decide!, by decide!, by decide!, by decide!, by decide!⟩


theorem var_1_eq_nil_or_singleton (store : Store) (name : QString) :
    var_1 store name = [] ∨ ∃ v, var_1 store name = [v] := by
  have hlen : (var_1 store name).length ≤ 1 := by
    simp only [var_1, List.length_map, List.length_take]
    omega
  cases h : var_1 store name with
  | nil => exact Or.inl rfl
  | cons v l =>
    cases l with
    | nil => exact Or.inr ⟨v, rfl⟩
    | cons w l =>
      rw [h] at hlen
      simp at hlen

/-- The category-name query returns every topic once: when the rows of `categories` with the
same id carry the same name, no two result rows agree in title, section, version and
content. -/
theorem categorySelect_topics_nodup (store : Store) (name : QString) (ac : List AncestorRow)
    (hid : ∀ c ∈ store.categories, ∀ d ∈ store.categories, c.id = d.id → c.name = d.name) :
    ((categorySelect store name ac).map fun r =>
      (r.title, r.section_, r.version, r.content)).Nodup := by
  rcases var_1_eq_nil_or_singleton store name with hv | ⟨v, hv⟩
  · have : categorySelect store name ac = [] := by
      simp [categorySelect, hv, distinct, flatMap_const_nil]
    rw [this]
    exact List.nodup_nil
  · apply List.Nodup.map_on
    · intro x hx y hy hxy
      obtain ⟨c, hc, _, _, _, _, _, _, _, _, ⟨_, _, _, _, hcv⟩, hxrow⟩ :=
        (mem_categorySelect store name v hv ac x).1 hx
      obtain ⟨d, hd, _, _, _, _, _, _, _, _, ⟨_, _, _, _, hdv⟩, hyrow⟩ :=
        (mem_categorySelect store name v hv ac y).1 hy
      have hname : x.name = y.name := by
        rw [hxrow, hyrow]
        exact hid c hc d hd (hcv.trans hdv.symm)
      cases x
      cases y
      simp only [Prod.mk.injEq] at hxy
      simp only [ResultRow.mk.injEq]
      exact ⟨hxy.1, hxy.2.1, hxy.2.2.1, hxy.2.2.2, hname⟩
    · unfold categorySelect
      exact nodup_distinct _

/-- The end-to-end scenario: in `dairyStore` the terms `40001765` and `dairy` both give the
document with T1 and T2, each once. -/
theorem dairy_scenario :
    contentAsDocbook 5 (some dairyStore) "40001765".toList =
        some (bookOf
          [{ title := "T1".toList, section_ := "risks".toList, version := "2020-01-01".toList,
             content := "<para>a</para>".toList, name := "Dairy".toList },
           { title := "T2".toList, section_ := "storage".toList,
             version := "2020-02-02".toList, content := "<para>b</para>".toList,
             name := "Food".toList }]) ∧
      contentAsDocbook 5 (some dairyStore) "dairy".toList =
        some (bookOf
          [{ title := "T1".toList, section_ := "risks".toList, version := "2020-01-01".toList,
             content := "<para>a</para>".toList, name := "Dairy".toList },
           { title := "T2".toList, section_ := "storage".toList,
             version := "2020-02-02".toList, content := "<para>b</para>".toList,
             name := "Dairy".toList }]) := by
  refine ⟨by decide!, by decide!⟩


/-! ## The entry point `content` -/

theorem normalize_of_isNumber (t : QString) (h : isNumber t = true) : normalize t = t := by
  have hsp : spacedNumber t = true := by
    unfold spacedNumber isNumber at *
    rw [List.all_eq_true] at h ⊢
    intro c hc
    simp [h c hc]
  have hrep : replaceChar ' ' [] t = t := by
    unfold isNumber at h
    clear hsp
    induction t with
    | nil => rfl
    | cons c t ih =>
      simp only [List.all_cons, Bool.and_eq_true] at h
      have hc : c ≠ ' ' := by
        rintro rfl
        exact absurd h.1 (by decide)
      have := ih h.2
      unfold replaceChar at this ⊢
      simp [List.flatMap_cons, hc, this]
  rw [normalize, if_pos hsp, hrep]

/-- C8, as the code has it: `content` does not normalise the search term.  For every store,
term and format, `content(t, f)` is the lookup of `t` exactly as it is given: the barcode query
under `toLongLong(t)` when `t` is digits only, and otherwise the category-name query for the
name `t` itself; the rows are rendered and, for HTML, handed to the stylesheet processor.
For a digit-only `t`, on which `normalize` changes nothing, `content(normalize(t), f)` is the
same. -/
theorem content_looks_up_term_as_given (query : XmlQuery) (fuel : Nat) (store : Store)
    (t : QString) (format : ContentFormat) :
    content query fuel (some store) t format =
        ((if isNumber t then barcodeQuery fuel store (toLongLong t)
          else categoryQuery fuel store t).map fun rows =>
            if format = ContentFormat.DOCBOOK then renderDocbook rows
            else if (renderDocbook rows).isEmpty then []
            else (query.evaluateTo (renderDocbook rows)).2) ∧
      content query fuel (some store) (if isNumber t then normalize t else t) format =
        content query fuel (some store) t format := by
  constructor
  · simp only [content, contentAsDocbook, Option.map_map]
    rfl
  · cases hnum : isNumber t with
    | true => simp only [if_true, normalize_of_isNumber t hnum]
    | false => simp only [Bool.false_eq_true, if_false]

/-- C8 as stated fails: in `dairyStore` the term `4000176 5` is looked up as a category name
and gives the empty string, while its normal form `40001765` gives the document of the
product. -/
theorem content_does_not_normalize :
    normalize "4000176 5".toList = "40001765".toList ∧
      content identityQuery 5 (some dairyStore) "4000176 5".toList ContentFormat.DOCBOOK =
        some [] ∧
      content identityQuery 5 (some dairyStore) (normalize "4000176 5".toList)
          ContentFormat.DOCBOOK ≠
        content identityQuery 5 (some dairyStore) "4000176 5".toList ContentFormat.DOCBOOK := by
  refine ⟨by decide!, by decide!, by decide!⟩

/-- C10, as the code has it: for a search term whose DocBook document `d` is not empty,
`content(term, HTML)` returns the string that `evaluateTo` left in `html`, whether or not the
query is valid and whether or not the evaluation succeeded. -/
theorem content_html_is_evaluateTo_output (query : XmlQuery) (fuel : Nat) (db : Option Store)
    (searchTerm d : QString) (hdoc : contentAsDocbook fuel db searchTerm = some d)
    (hne : d ≠ []) :
    content query fuel db searchTerm ContentFormat.HTML = some (query.evaluateTo d).2 := by
  rw [content, hdoc]
  cases d with
  | nil => exact absurd rfl hne
  | cons c d => rfl

theorem content_html_is_evaluateTo_output_witness :
    content failingQuery 5 (some dairyStore) "Dairy".toList ContentFormat.HTML =
      some (failingQuery.evaluateTo (bookOf
        [{ title := "T1".toList, section_ := "risks".toList, version := "2020-01-01".toList,
           content := "<para>a</para>".toList, name := "Dairy".toList },
         { title := "T2".toList, section_ := "storage".toList, version := "2020-02-02".toList,
           content := "<para>b</para>".toList, name := "Dairy".toList }])).2 :=
  content_html_is_evaluateTo_output failingQuery 5 (some dairyStore) "Dairy".toList _
    (by decide!) (by decide!)

/-- C10 as stated fails: with a stylesheet processor whose conversion fails (invalid query,
`evaluateTo` false), `content(Dairy, HTML)` on `dairyStore` is the empty string, not the
non-empty DocBook document of the term. -/
theorem failed_conversion_returns_no_docbook :
    failingQuery.isValid = false ∧
      (failingQuery.evaluateTo (bookOf [])).1 = false ∧
      (∃ d, contentAsDocbook 5 (some dairyStore) "Dairy".toList = some d ∧ d ≠ [] ∧
        (failingQuery.evaluateTo d).1 = false ∧
        content failingQuery 5 (some dairyStore) "Dairy".toList ContentFormat.HTML ≠ some d) ∧
      content failingQuery 5 (some dairyStore) "Dairy".toList ContentFormat.HTML = some [] := by
  refine ⟨rfl, rfl, ⟨_, rfl, by decide!, rfl, by decide!⟩, by decide!⟩


/-! ## Completions: empty input, order and limit -/

/-- C13: for every database (also one whose query fails), every limit and every previous
completion model, `updateCompletions` with the empty string leaves the completion model
empty. -/
theorem updateCompletions_empty_input (db : Option Store) (self : ContentDatabase)
    (limit : Int) :
    updateCompletions db self [] limit = { m_completionModel := [] } := by
  rfl

theorem replaceChar_ne_nil (after s : QString) (hafter : after ≠ []) (hs : s ≠ []) :
    replaceChar ' ' after s ≠ [] := by
  cases s with
  | nil => exact absurd rfl hs
  | cons c s =>
    unfold replaceChar
    by_cases hc : c = ' '
    · simp [List.flatMap_cons, hc, hafter]
    · simp [List.flatMap_cons, hc]

theorem updateCompletions_of_nonempty (store : Store) (self : ContentDatabase)
    (fragments : QString) (limit : Int) (hne : fragments ≠ []) :
    (updateCompletions (some store) self fragments limit).m_completionModel =
      completionQuery store (['%'] ++ replaceChar ' ' ['%'] fragments ++ ['%']) limit := by
  have h := replaceChar_ne_nil ['%'] fragments (by simp) hne
  have hempty : (replaceChar ' ' ['%'] fragments).isEmpty = false := by
    cases hr : replaceChar ' ' ['%'] fragments with
    | nil => exact absurd hr h
    | cons c r => rfl
  simp only [updateCompletions, hempty, Bool.false_eq_true, if_false, List.nil_append]

theorem sorted_by_length (l : List QString) :
    (l.insertionSort fun a b => a.length ≤ b.length).Sorted fun a b => a.length ≤ b.length := by
  haveI : IsTotal QString (fun a b => a.length ≤ b.length) := ⟨fun a b => Nat.le_total _ _⟩
  haveI : IsTrans QString (fun a b => a.length ≤ b.length) := ⟨fun _ _ _ h1 h2 => Nat.le_trans h1 h2⟩
  exact List.sorted_insertionSort _ l

/-- C11: for a non-empty fragments string and a limit above 0, the completion model left by
`updateCompletions` has at most `limit` entries, is in non-decreasing order of name length, and
is the candidate names without some left-out names none of which is shorter than a kept
one. -/
theorem updateCompletions_ordered_and_limited (store : Store) (self : ContentDatabase)
    (fragments : QString) (limit : Int) (hne : fragments ≠ []) (hlimit : 0 < limit) :
    ((updateCompletions (some store) self fragments limit).m_completionModel.length : Int)
        ≤ limit ∧
      (updateCompletions (some store) self fragments limit).m_completionModel.Sorted
        (fun a b => a.length ≤ b.length) ∧
      ∃ leftOut,
        (completionCandidates store (['%'] ++ replaceChar ' ' ['%'] fragments ++ ['%'])).Perm
          ((updateCompletions (some store) self fragments limit).m_completionModel ++ leftOut) ∧
        ∀ kept ∈ (updateCompletions (some store) self fragments limit).m_completionModel,
          ∀ out ∈ leftOut, kept.length ≤ out.length := by
  rw [updateCompletions_of_nonempty store self fragments limit hne]
  generalize ['%'] ++ replaceChar ' ' ['%'] fragments ++ ['%'] = searchTerm
  have hsorted := sorted_by_length (completionCandidates store searchTerm)
  have hperm := List.perm_insertionSort (fun a b : QString => a.length ≤ b.length)
    (completionCandidates store searchTerm)
  have hq : completionQuery store searchTerm limit =
      ((completionCandidates store searchTerm).insertionSort
        fun a b => a.length ≤ b.length).take limit.toNat := by
    unfold completionQuery applyLimit
    rw [if_neg (by omega)]
  rw [hq]
  generalize (completionCandidates store searchTerm).insertionSort
    (fun a b => a.length ≤ b.length) = sorted at hsorted hperm
  refine ⟨?_, ?_, sorted.drop limit.toNat, ?_, ?_⟩
  · have := List.length_take_le limit.toNat sorted
    omega
  · exact hsorted.sublist (List.take_sublist _ _)
  · rw [List.take_append_drop]
    exact hperm.symm
  · intro kept hkept out hout
    have hpair : (sorted.take limit.toNat ++ sorted.drop limit.toNat).Pairwise
        (fun a b => a.length ≤ b.length) := by
      rw [List.take_append_drop]
      exact hsorted
    exact (List.pairwise_append.1 hpair).2.2 kept hkept out hout

theorem updateCompletions_ordered_and_limited_witness :
    (((updateCompletions (some soupStore) { m_completionModel := [] } "soup".toList
          2).m_completionModel.length : Int) ≤ 2 ∧
      (updateCompletions (some soupStore) { m_completionModel := [] } "soup".toList
          2).m_completionModel.Sorted (fun a b => a.length ≤ b.length) ∧
      ∃ leftOut,
        (completionCandidates soupStore
            (['%'] ++ replaceChar ' ' ['%'] "soup".toList ++ ['%'])).Perm
          ((updateCompletions (some soupStore) { m_completionModel := [] } "soup".toList
            2).m_completionModel ++ leftOut) ∧
        ∀ kept ∈ (updateCompletions (some soupStore) { m_completionModel := [] }
            "soup".toList 2).m_completionModel,
          ∀ out ∈ leftOut, kept.length ≤ out.length) ∧
      (updateCompletions (some soupStore) { m_completionModel := [] } "soup".toList
          2).m_completionModel.head? = some "Soup".toList :=
  ⟨updateCompletions_ordered_and_limited soupStore { m_completionModel := [] } "soup".toList 2
    (by decide) (by decide), by decide!⟩


/-! ## Normalising twice -/

theorem skipNormal_skipSpaces (s : QString) :
    skipNormal (skipSpaces s) = true ∧ wordNormal (copyWord s) = true := by
  induction s with
  | nil => simp [skipSpaces, copyWord, skipNormal, wordNormal]
  | cons c s ih =>
    by_cases hc : isSpace c = true
    · simp [skipSpaces, copyWord, skipNormal, wordNormal, hc, ih.1, isSpace_space]
    · have hc' : isSpace c = false := by simpa using hc
      simp [skipSpaces, copyWord, skipNormal, wordNormal, hc', ih.2]

theorem skipSpaces_of_skipNormal (t : QString) :
    (skipNormal t = true → skipSpaces t = t) ∧ (wordNormal t = true → copyWord t = t) := by
  induction t with
  | nil => simp [skipSpaces, copyWord]
  | cons c t ih =>
    by_cases hc : isSpace c = true
    · constructor
      · intro h
        simp [skipNormal, hc] at h
      · intro h
        simp only [wordNormal, hc, if_true, Bool.and_eq_true, beq_iff_eq] at h
        have e : copyWord (c :: t) = ' ' :: skipSpaces t := by
          simp only [copyWord, hc, if_true]
        rw [e, ih.1 h.2, h.1]
    · have hc' : isSpace c = false := by simpa using hc
      constructor
      · intro h
        simp only [skipNormal, hc', Bool.not_false, Bool.true_and] at h
        simp [skipSpaces, hc', ih.2 h]
      · intro h
        simp only [wordNormal, hc', Bool.false_eq_true, if_false] at h
        simp [copyWord, hc', ih.2 h]

theorem ne_space_of_not_isSpace (c : Char) (hc : isSpace c = false) : c ≠ ' ' := by
  rintro rfl
  rw [isSpace_space] at hc
  exact Bool.noConfusion hc

theorem skipNormal_concat_space (v : QString) :
    (skipNormal (v ++ [' ']) = true → skipNormal v = true ∧ v.getLast? ≠ some ' ') ∧
      (wordNormal (v ++ [' ']) = true → wordNormal v = true ∧ v.getLast? ≠ some ' ') := by
  induction v with
  | nil => simp [skipNormal, wordNormal, isSpace_space]
  | cons c v ih =>
    have hlast : ∀ hv : v.getLast? ≠ some ' ', c ≠ ' ' → (c :: v).getLast? ≠ some ' ' := by
      intro hv hc
      cases v with
      | nil => simpa using hc
      | cons d v => simpa [List.getLast?_cons_cons] using hv
    by_cases hc : isSpace c = true
    · constructor
      · intro h
        simp [skipNormal, hc] at h
      · intro h
        simp only [List.cons_append, wordNormal, hc, if_true, Bool.and_eq_true,
          beq_iff_eq] at h
        obtain ⟨h1, h2⟩ := ih.1 h.2
        have e : wordNormal (c :: v) = (c == ' ' && skipNormal v) := by
          simp only [wordNormal, hc, if_true]
        refine ⟨by rw [e, h1, h.1]; rfl, ?_⟩
        cases v with
        | nil => simp [skipNormal, isSpace_space] at h
        | cons d v => simpa [List.getLast?_cons_cons] using h2
    · have hc' : isSpace c = false := by simpa using hc
      constructor
      · intro h
        simp only [List.cons_append, skipNormal, hc', Bool.not_false, Bool.true_and] at h
        obtain ⟨h1, h2⟩ := ih.2 h
        exact ⟨by simp [skipNormal, hc', h1], hlast h2 (ne_space_of_not_isSpace c hc')⟩
      · intro h
        simp only [List.cons_append, wordNormal, hc', Bool.false_eq_true, if_false] at h
        obtain ⟨h1, h2⟩ := ih.2 h
        exact ⟨by simp [wordNormal, hc', h1], hlast h2 (ne_space_of_not_isSpace c hc')⟩

theorem simplified_normal (s : QString) :
    skipNormal (simplified s) = true ∧ (simplified s).getLast? ≠ some ' ' := by
  unfold simplified dropTrailingSpace
  have hx := (skipNormal_skipSpaces s).1
  generalize skipSpaces s = x at hx
  by_cases hlast : x.getLast? = some ' '
  · rw [if_pos hlast]
    have hx' : x = x.dropLast ++ [' '] := by
      have := List.dropLast_append_getLast? ' ' (by simpa using hlast)
      exact this.symm
    rw [hx'] at hx
    exact (skipNormal_concat_space x.dropLast).1 hx
  · rw [if_neg hlast]
    exact ⟨hx, hlast⟩

theorem simplified_idempotent (s : QString) : simplified (simplified s) = simplified s := by
  obtain ⟨h1, h2⟩ := simplified_normal s
  generalize simplified s = y at h1 h2
  unfold simplified
  rw [(skipSpaces_of_skipNormal y).1 h1, dropTrailingSpace, if_neg h2]

theorem normalize_idempotent_of_spacedNumber (s : QString) (h : spacedNumber s = true) :
    normalize (normalize s) = normalize s := by
  have h1 : normalize s = s.filter (fun c => c != ' ') := by
    rw [normalize, if_pos h, replaceChar_nil_eq_filter]
  have h2 : spacedNumber (s.filter (fun c => c != ' ')) = true := by
    unfold spacedNumber at h ⊢
    rw [List.all_eq_true] at h ⊢
    intro c hc
    exact h c (List.mem_filter.1 hc).1
  rw [h1, normalize, if_pos h2, replaceChar_nil_eq_filter, List.filter_filter]
  simp

/-- C14, as the code has it: a second pass of `normalize` changes nothing exactly when the
string is not one that fails the digits-and-spaces test itself while its simplified form
passes it and still holds a space (digits separated by whitespace that includes a tab, a
newline or another whitespace character that is not the space). -/
theorem normalize_idempotent_iff (s : QString) :
    normalize (normalize s) = normalize s ↔
      ¬ (spacedNumber s = false ∧ spacedNumber (simplified s) = true ∧
          ' ' ∈ simplified s) := by
  by_cases h : spacedNumber s = true
  · simp [normalize_idempotent_of_spacedNumber s h, h]
  · have h' : spacedNumber s = false := by simpa using h
    have hn : normalize s = simplified s := by rw [normalize, if_neg h]
    rw [hn]
    by_cases hs : spacedNumber (simplified s) = true
    · rw [normalize, if_pos hs, replaceChar_nil_eq_filter, List.filter_eq_self]
      simp only [h', hs, true_and, bne_iff_ne, ne_eq]
      constructor
      · intro hall hmem
        exact hall ' ' hmem rfl
      · intro hnot c hc hceq
        exact hnot (hceq ▸ hc)
    · rw [normalize, if_neg hs, simplified_idempotent]
      simp [hs]

/-- C14 as stated fails: `normalize` turns the string of `12`, a tab and `34` into `12 34`, in
which the second pass removes the space. -/
theorem normalize_not_idempotent :
    normalize "12\t34".toList = "12 34".toList ∧
      normalize (normalize "12\t34".toList) = "1234".toList ∧
      normalize (normalize "12\t34".toList) ≠ normalize "12\t34".toList := by
  refine ⟨by decide!, by decide!, by decide!⟩


/-! ## Completions: the pattern and the fragments -/

theorem anySuffix_iff (f : QString → Bool) (s : QString) :
    anySuffix f s = true ↔ ∃ pre post, s = pre ++ post ∧ f post = true := by
  induction s with
  | nil =>
    simp only [anySuffix]
    constructor
    · intro h
      exact ⟨[], [], rfl, h⟩
    · rintro ⟨pre, post, hs, hf⟩
      have hpost : post = [] := (List.append_eq_nil.1 hs.symm).2
      rw [hpost] at hf
      exact hf
  | cons c s ih =>
    simp only [anySuffix, Bool.or_eq_true, ih]
    constructor
    · rintro (h | ⟨pre, post, hs, hf⟩)
      · exact ⟨[], c :: s, rfl, h⟩
      · exact ⟨c :: pre, post, by rw [hs]; rfl, hf⟩
    · rintro ⟨pre, post, hs, hf⟩
      cases pre with
      | nil =>
        simp only [List.nil_append] at hs
        rw [← hs] at hf
        exact Or.inl hf
      | cons d pre =>
        simp only [List.cons_append, List.cons.injEq] at hs
        exact Or.inr ⟨pre, post, hs.2, hf⟩

theorem likeMatch_percent (pattern s : QString) :
    likeMatch ('%' :: pattern) s = anySuffix (likeMatch pattern) s := by
  simp only [likeMatch, if_true]

theorem likeMatch_percent_only (s : QString) : likeMatch ['%'] s = true := by
  rw [likeMatch_percent, anySuffix_iff]
  exact ⟨s, [], by simp, rfl⟩

theorem likeMatch_plain_cons (c : Char) (pattern s : QString) (h1 : c ≠ '%') (h2 : c ≠ '_') :
    likeMatch (c :: pattern) s = true ↔
      ∃ d rest, s = d :: rest ∧ foldAscii c = foldAscii d ∧ likeMatch pattern rest = true := by
  cases s with
  | nil => simp [likeMatch, h1]
  | cons d rest =>
    simp only [likeMatch, if_neg h1, Bool.and_eq_true, Bool.or_eq_true, beq_iff_eq,
      List.cons.injEq]
    constructor
    · rintro ⟨h | h, hrest⟩
      · exact absurd h h2
      · exact ⟨d, rest, ⟨rfl, rfl⟩, h, hrest⟩
    · rintro ⟨e, rest', ⟨hd, hr⟩, hfold, hrest⟩
      subst hd
      subst hr
      exact ⟨Or.inr hfold, hrest⟩

theorem likeMatch_plain_append (w pattern : QString) (hw : ∀ c ∈ w, c ≠ '%' ∧ c ≠ '_')
    (s : QString) :
    likeMatch (w ++ pattern) s = true ↔
      ∃ mid post, s = mid ++ post ∧ mid.map foldAscii = w.map foldAscii ∧
        likeMatch pattern post = true := by
  induction w generalizing s with
  | nil =>
    simp only [List.nil_append, List.map_nil, List.map_eq_nil_iff]
    constructor
    · intro h
      exact ⟨[], s, rfl, rfl, h⟩
    · rintro ⟨mid, post, hs, hmid, h⟩
      subst hmid
      rw [hs]
      exact h
  | cons c w ih =>
    have hc := hw c (List.mem_cons_self _ _)
    have hw' : ∀ x ∈ w, x ≠ '%' ∧ x ≠ '_' := fun x hx => hw x (List.mem_cons_of_mem _ hx)
    rw [List.cons_append, likeMatch_plain_cons c _ s hc.1 hc.2]
    constructor
    · rintro ⟨d, rest, hs, hfold, hrest⟩
      obtain ⟨mid, post, hr, hmid, hpost⟩ := (ih hw' rest).1 hrest
      exact ⟨d :: mid, post, by rw [hs, hr]; rfl, by simp [hfold, hmid], hpost⟩
    · rintro ⟨mid, post, hs, hmid, hpost⟩
      cases mid with
      | nil => simp at hmid
      | cons d mid =>
        simp only [List.map_cons, List.cons.injEq] at hmid
        exact ⟨d, mid ++ post, by rw [hs]; rfl, hmid.1.symm,
          (ih hw' (mid ++ post)).2 ⟨mid, post, rfl, hmid.2, hpost⟩⟩

theorem splitSpaces_ne_nil (s : QString) : splitSpaces s ≠ [] := by
  cases s with
  | nil => simp [splitSpaces]
  | cons c s =>
    unfold splitSpaces
    split
    · simp
    · split <;> simp

theorem percent_replaceChar (s : QString) :
    '%' :: replaceChar ' ' ['%'] s = (splitSpaces s).flatMap fun w => '%' :: w := by
  induction s with
  | nil => rfl
  | cons c s ih =>
    unfold replaceChar at ih ⊢
    by_cases hc : c = ' '
    · simp only [List.flatMap_cons, hc, if_true, splitSpaces, List.append_nil,
        List.singleton_append, List.nil_append]
      rw [ih]
    · cases hsplit : splitSpaces s with
      | nil => exact absurd hsplit (splitSpaces_ne_nil s)
      | cons w ws =>
        rw [hsplit] at ih
        simp only [List.flatMap_cons, List.cons_append, List.cons.injEq, true_and] at ih
        simp only [List.flatMap_cons, hc, if_false, splitSpaces, hsplit, List.cons_append,
          List.singleton_append, List.nil_append, ih]

theorem mem_of_mem_splitSpaces (s w : QString) (c : Char) (hw : w ∈ splitSpaces s)
    (hc : c ∈ w) : c ∈ s := by
  induction s generalizing w with
  | nil => simp [splitSpaces] at hw; subst hw; simp at hc
  | cons d s ih =>
    unfold splitSpaces at hw
    split at hw
    · rcases List.mem_cons.1 hw with hw | hw
      · subst hw; simp at hc
      · exact List.mem_cons_of_mem _ (ih w hw hc)
    · cases hsplit : splitSpaces s with
      | nil => exact absurd hsplit (splitSpaces_ne_nil s)
      | cons v vs =>
        rw [hsplit] at hw ih
        simp only [List.mem_cons] at hw
        rcases hw with hw | hw
        · subst hw
          rcases List.mem_cons.1 hc with hc | hc
          · rw [hc]; exact List.mem_cons_self _ _
          · exact List.mem_cons_of_mem _ (ih v (List.mem_cons_self _ _) hc)
        · exact List.mem_cons_of_mem _ (ih w (List.mem_cons_of_mem _ hw) hc)

/-- A pattern `%f1%f2...%fn%` of fragments without `%` and `_` matches exactly the names in
which the fragments occur one after the other. -/
theorem likeMatch_fragments (ws : List QString)
    (hws : ∀ w ∈ ws, ∀ c ∈ w, c ≠ '%' ∧ c ≠ '_') (name : QString) :
    likeMatch ((ws.flatMap fun w => '%' :: w) ++ ['%']) name = true ↔
      OccurInOrder ws name := by
  induction ws generalizing name with
  | nil => simp [OccurInOrder, likeMatch_percent_only]
  | cons w ws ih =>
    have hw := hws w (List.mem_cons_self _ _)
    have hws' : ∀ v ∈ ws, ∀ c ∈ v, c ≠ '%' ∧ c ≠ '_' :=
      fun v hv => hws v (List.mem_cons_of_mem _ hv)
    simp only [List.flatMap_cons, List.cons_append, List.append_assoc]
    rw [likeMatch_percent, anySuffix_iff]
    simp only [OccurInOrder]
    constructor
    · rintro ⟨pre, post, hname, hmatch⟩
      obtain ⟨mid, post', hpost, hmid, hrest⟩ := (likeMatch_plain_append w _ hw post).1 hmatch
      exact ⟨pre, mid, post', by rw [hname, hpost, List.append_assoc], hmid,
        (ih hws' post').1 hrest⟩
    · rintro ⟨pre, mid, post, hname, hmid, hrest⟩
      exact ⟨pre, mid ++ post, by rw [hname, List.append_assoc],
        (likeMatch_plain_append w _ hw (mid ++ post)).2
          ⟨mid, post, rfl, hmid, (ih hws' post).2 hrest⟩⟩

theorem likeMatch_english (lang : QString) :
    likeMatch "en%".toList lang = true ↔ IsEnglish lang := by
  have hpat : "en%".toList = ['e', 'n'] ++ ['%'] := rfl
  rw [hpat, likeMatch_plain_append ['e', 'n'] ['%']
    (by intro c hc; simp at hc; rcases hc with rfl | rfl <;> decide) lang]
  unfold IsEnglish
  have hfold : ['e', 'n'].map foldAscii = ['e', 'n'] := by decide
  rw [hfold]
  constructor
  · rintro ⟨mid, post, hlang, hmid, _⟩
    have hlen : mid.length = 2 := by
      have := congrArg List.length hmid
      simpa using this
    rw [hlang, List.take_left' hlen]
    exact hmid
  · intro h
    exact ⟨lang.take 2, lang.drop 2, (List.take_append_drop 2 lang).symm, h,
      likeMatch_percent_only _⟩

/-- For fragments without the characters `%` and `_`, the completion candidates are the names
of the categories whose language is English and in whose name the space-separated fragments
occur one after the other, letters of ASCII compared without case. -/
theorem completionCandidates_of_plain_fragments (store : Store) (fragments : QString)
    (hplain : ∀ c ∈ fragments, c ≠ '%' ∧ c ≠ '_') (name : QString) :
    name ∈ completionCandidates store (['%'] ++ replaceChar ' ' ['%'] fragments ++ ['%']) ↔
      ∃ c ∈ store.categories, c.name = name ∧ IsEnglish c.lang ∧
        OccurInOrder (splitSpaces fragments) c.name := by
  have hpat : ['%'] ++ replaceChar ' ' ['%'] fragments ++ ['%'] =
      ((splitSpaces fragments).flatMap fun w => '%' :: w) ++ ['%'] := by
    rw [← percent_replaceChar]
    rfl
  have hws : ∀ w ∈ splitSpaces fragments, ∀ c ∈ w, c ≠ '%' ∧ c ≠ '_' :=
    fun w hw c hc => hplain c (mem_of_mem_splitSpaces fragments w c hw hc)
  rw [hpat]
  unfold completionCandidates
  simp only [List.mem_map, List.mem_filter, Bool.and_eq_true, likeMatch_english,
    likeMatch_fragments _ hws]
  constructor
  · rintro ⟨c, ⟨hc, hen, hocc⟩, hname⟩
    exact ⟨c, hc, hname, hen, hocc⟩
  · rintro ⟨c, hc, hname, hen, hocc⟩
    exact ⟨c, ⟨hc, hen, hocc⟩, hname⟩

/-- C12, the code at the failing input: with the single English category `axb`, the fragment
`a_b` is turned into the pattern `%a_b%`, in which `_` stands for any character, so `axb` is a
completion although `a_b` does not occur in it. -/
theorem underscore_fragment_completes_other_name :
    (updateCompletions (some axbStore) { m_completionModel := [] } "a_b".toList
        10).m_completionModel = ["axb".toList] ∧
      likeMatch (['%'] ++ replaceChar ' ' ['%'] "a_b".toList ++ ['%']) "axb".toList = true ∧
      ¬ OccurInOrder (splitSpaces "a_b".toList) "axb".toList := by
  refine ⟨by decide!, by decide!, ?_⟩
  have hsplit : splitSpaces "a_b".toList = ["a_b".toList] := by decide!
  rw [hsplit]
  rintro ⟨pre, mid, post, hname, hmid, _⟩
  have h1 := congrArg List.length hname
  have h2 := congrArg List.length hmid
  simp only [List.length_append, List.length_map] at h1 h2
  have h3 : ("axb".toList).length = 3 := rfl
  have h4 : ("a_b".toList).length = 3 := rfl
  have hpre : pre = [] := List.length_eq_zero.1 (by omega)
  have hpost : post = [] := List.length_eq_zero.1 (by omega)
  rw [hpre, hpost, List.nil_append, List.append_nil] at hname
  rw [← hname] at hmid
  exact absurd hmid (by decide!)


/-! ## A product code beyond 64 bits -/

/-- C1, the code at the failing input: in `longCodeStore` the digit-only term
`9223372036854775808` is the code of the product, the parent links are acyclic and topic T1 is
linked to the directly assigned category Dairy; `toLongLong` fails on the term and 0 is bound
to `:code`, no product has the code 0, and `contentAsDocbook` returns the empty string. -/
theorem long_product_code_is_not_found :
    isNumber "9223372036854775808".toList = true ∧
      (∃ p ∈ longCodeStore.products,
        p.code = (digitsValue "9223372036854775808".toList : Int)) ∧
      Acyclic longCodeStore ∧
      (∃ c ∈ longCodeStore.categories,
        InProductClosure longCodeStore 9223372036854775808 c.id ∧
          TopicLinked longCodeStore c.id "T1".toList "risks".toList "2020-01-01".toList
            "<para>a</para>".toList) ∧
      toLongLong "9223372036854775808".toList = 0 ∧
      (∀ fuel, contentAsDocbook fuel (some longCodeStore) "9223372036854775808".toList =
        some []) := by
  refine ⟨by decide!, ⟨⟨1, 9223372036854775808⟩, by decide, by decide!⟩, ?_, ?_, by decide!, ?_⟩
  · exact acyclic_of_rank longCodeStore (fun _ => 0) (by decide)
  · refine ⟨{ id := 10, name := "Dairy".toList, lang := "en".toList }, by decide,
      ⟨⟨1, 9223372036854775808⟩, by decide, rfl, ⟨1, 10⟩, by decide, rfl,
        Relation.ReflTransGen.refl⟩, ?_⟩
    exact ⟨⟨100, "risks".toList, "2020-01-01".toList⟩, by decide,
      ⟨100, "T1".toList, "<para>a</para>".toList⟩, by decide, ⟨100, 10⟩, by decide,
      rfl, rfl, rfl, rfl, rfl, rfl, rfl⟩
  · intro fuel
    exact (content_of_unresolved_term identityQuery fuel longCodeStore
      "9223372036854775808".toList ContentFormat.DOCBOOK
      (fun _ => by decide!) (fun h => absurd h (by decide!))).1
end FoodRescue
